import Mathlib

/-!
Verification development for the Vstorage frame codec and error-recovery
pipeline.  The definitions below are shallow embeddings of the Rust sources
(`src/frame.rs`, `src/config.rs`, `src/header.rs`, `src/ecc.rs`,
`src/encode.rs`, `src/decode.rs`).  Machine integers are modelled as `Nat`
with explicit `% 2^w` where overflow can occur; fallible code returns
`Except`; the external Reed-Solomon library and crypto primitives are
modelled from the specification as explicitly marked parameters.
-/

set_option maxRecDepth 40000

/-! ## Quantizer (src/frame.rs, `quantize` / `dequantize`) -/

/-- Embedding of `quantize` from src/frame.rs: maps a quantization level
(0..levels-1) to a pixel channel value.  The Rust code computes
`(value as u16 * 255 / (levels as u16 - 1)) as u8`; the trailing `% 256`
models the `as u8` cast. -/
def quantize (value levels : ℕ) : ℕ :=
  if levels ≤ 1 then 0 else value * 255 / (levels - 1) % 256

/-- Embedding of `dequantize` from src/frame.rs.  The Rust code computes
`((pixel as f64 / (255.0 / (levels as f64 - 1.0))).round() as u8).min(levels - 1)`.
For the valid level counts (2, 4, 8, 16) and `pixel ≤ 255`, the f64
computation carries a relative error below `2^-50`, while the exact rational
`pixel * (levels-1) / 255` is never closer than `1/510` to a half-integer
(`2 * pixel * (levels-1)` is even, `255 * odd` is odd), so the float rounding
coincides with exact round-to-nearest, ties being impossible.  The formula
below is round-half-up on the exact rational, which therefore agrees with the
source for every input the claims range over. -/
def dequantize (pixel levels : ℕ) : ℕ :=
  if levels ≤ 1 then 0
  else min ((2 * pixel * (levels - 1) + 255) / 510) (levels - 1)

/-- Saturating clamp of a signed value into the byte range 0..255, as in
`(pixel as i16 + noise).clamp(0, 255) as u8` used by the noise-tolerance
property. -/
def clampByte (x : ℤ) : ℕ := (max 0 (min x 255)).toNat

/-- C6: For all levels L in {2,4,8,16} and every level v in [0, L-1],
dequantize (quantize v L) L = v, and dequantize clamps its result to at most
L-1 for every pixel value. -/
theorem claim_C6 :
    ∀ L ∈ ([2, 4, 8, 16] : List ℕ),
      (∀ v < L, dequantize (quantize v L) L = v) ∧
      (∀ p : ℕ, dequantize p L ≤ L - 1) := by
  intro L hL
  fin_cases hL <;>
    exact ⟨by decide, fun p => by
      unfold dequantize
      rw [if_neg (by norm_num)]
      exact Nat.min_le_right _ _⟩

/-- Witness for C6 at L = 4, v = 2. -/
theorem claim_C6_witness : dequantize (quantize 2 4) 4 = 2 :=
  (claim_C6 4 (by decide)).1 2 (by decide)

/-- Counterexample to C2 as stated: at L = 8, v = 2, the noise n = -18 lies
within the claimed tolerance ⌊255 / (2·(L-1))⌋ = 18, yet the round trip
returns 1, not 2 (the source quantizer truncates instead of rounding, so
quantize 2 8 = 72 while the ideal center is 510/7 ≈ 72.86). -/
theorem claim_C2_counterexample :
    dequantize (clampByte ((quantize 2 8 : ℤ) + (-18))) 8 = 1 ∧
    Int.natAbs (-18) ≤ 255 / (2 * (8 - 1)) ∧ (1 : ℕ) ≠ 2 := by
  decide

/-- C2 (amended): for L ∈ {2,4,16} the full claimed noise range
[−⌊255/(2(L−1))⌋, +⌊255/(2(L−1))⌋] is tolerated; for L = 8 the lower bound
is −17 instead of −18 (the truncating quantizer sits up to 6/7 of a pixel
step below the ideal level center). -/
theorem claim_C2_amended :
    ∀ L ∈ ([2, 4, 8, 16] : List ℕ), ∀ v < L, ∀ n : ℤ,
      -(if L = 8 then 17 else (255 / (2 * (L - 1)) : ℕ) : ℤ) ≤ n →
      n ≤ (255 / (2 * (L - 1)) : ℕ) →
      dequantize (clampByte ((quantize v L : ℤ) + n)) L = v := by
  have h2 : ∀ v < 2, ∀ k : ℕ, k < 255 →
      dequantize (clampByte ((quantize v 2 : ℤ) + (k : ℤ) - 127)) 2 = v := by decide
  have h4 : ∀ v < 4, ∀ k : ℕ, k < 85 →
      dequantize (clampByte ((quantize v 4 : ℤ) + (k : ℤ) - 42)) 4 = v := by decide
  have h8 : ∀ v < 8, ∀ k : ℕ, k < 36 →
      dequantize (clampByte ((quantize v 8 : ℤ) + (k : ℤ) - 17)) 8 = v := by decide
  have h16 : ∀ v < 16, ∀ k : ℕ, k < 17 →
      dequantize (clampByte ((quantize v 16 : ℤ) + (k : ℤ) - 8)) 16 = v := by decide
  intro L hL
  fin_cases hL
  · intro v hv n hn1 hn2
    norm_num at hn1 hn2
    have hk : (n + 127).toNat < 255 := by omega
    have := h2 v hv (n + 127).toNat hk
    have he : (quantize v 2 : ℤ) + ((n + 127).toNat : ℤ) - 127 =
        (quantize v 2 : ℤ) + n := by omega
    rwa [he] at this
  · intro v hv n hn1 hn2
    norm_num at hn1 hn2
    have hk : (n + 42).toNat < 85 := by omega
    have := h4 v hv (n + 42).toNat hk
    have he : (quantize v 4 : ℤ) + ((n + 42).toNat : ℤ) - 42 =
        (quantize v 4 : ℤ) + n := by omega
    rwa [he] at this
  · intro v hv n hn1 hn2
    norm_num at hn1 hn2
    have hk : (n + 17).toNat < 36 := by omega
    have := h8 v hv (n + 17).toNat hk
    have he : (quantize v 8 : ℤ) + ((n + 17).toNat : ℤ) - 17 =
        (quantize v 8 : ℤ) + n := by omega
    rwa [he] at this
  · intro v hv n hn1 hn2
    norm_num at hn1 hn2
    have hk : (n + 8).toNat < 17 := by omega
    have := h16 v hv (n + 8).toNat hk
    have he : (quantize v 16 : ℤ) + ((n + 8).toNat : ℤ) - 8 =
        (quantize v 16 : ℤ) + n := by omega
    rwa [he] at this

/-- Witness for the amended C2 at L = 8, v = 2, n = -17. -/
theorem claim_C2_witness :
    dequantize (clampByte ((quantize 2 8 : ℤ) + (-17))) 8 = 2 :=
  claim_C2_amended 8 (by decide) 2 (by decide) (-17) (by decide) (by decide)

/-! ## Bit stream (src/frame.rs, `BitWriter` / `BitReader`) -/

/-- State of the MSB-first bit writer from src/frame.rs. -/
structure BitWriter where
  bytes : List ℕ
  current : ℕ
  count : ℕ

/-- `BitWriter::new()`. -/
def BitWriter.new : BitWriter := ⟨[], 0, 0⟩

/-- One iteration of the `write_bits` loop body: `current = (current << 1) | bit`
(the `% 256` models the `u8` shift), increment `count`, emit a byte on the
8th bit.  `bit` is always 0 or 1, so the `|` is `+`. -/
def BitWriter.pushBit (w : BitWriter) (bit : ℕ) : BitWriter :=
  if w.count + 1 = 8 then ⟨w.bytes ++ [w.current * 2 % 256 + bit], 0, 0⟩
  else ⟨w.bytes, w.current * 2 % 256 + bit, w.count + 1⟩

/-- The MSB-first bit sequence of `value`, as traversed by the loop
`for i in (0..num_bits).rev()`. -/
def writeBitSeq (value numBits : ℕ) : List ℕ :=
  (List.range numBits).reverse.map (fun i => value / 2 ^ i % 2)

/-- `BitWriter::write_bits` from src/frame.rs. -/
def BitWriter.write_bits (w : BitWriter) (value numBits : ℕ) : BitWriter :=
  (writeBitSeq value numBits).foldl BitWriter.pushBit w

/-- `BitWriter::finish` from src/frame.rs: left-shift any partial byte and
emit it. -/
def BitWriter.finish (w : BitWriter) : List ℕ :=
  if 0 < w.count then w.bytes ++ [w.current * 2 ^ (8 - w.count) % 256] else w.bytes

theorem foldl_pushBit_len (bs : List ℕ) : ∀ w : BitWriter, w.count < 8 →
    (bs.foldl BitWriter.pushBit w).bytes.length = w.bytes.length + (w.count + bs.length) / 8 ∧
    (bs.foldl BitWriter.pushBit w).count = (w.count + bs.length) % 8 := by
  induction bs with
  | nil => intro w h; refine ⟨?_, ?_⟩ <;> simp <;> omega
  | cons b bs ih =>
    intro w h
    rw [List.foldl_cons]
    by_cases hc : w.count + 1 = 8
    · have hp : BitWriter.pushBit w b = ⟨w.bytes ++ [w.current * 2 % 256 + b], 0, 0⟩ := by
        simp [BitWriter.pushBit, hc]
      rw [hp]
      obtain ⟨ih1, ih2⟩ := ih ⟨w.bytes ++ [w.current * 2 % 256 + b], 0, 0⟩
        (show (0 : ℕ) < 8 by norm_num)
      simp only [List.length_append, List.length_cons, List.length_singleton,
        List.length_nil] at ih1 ih2 ⊢
      refine ⟨?_, ?_⟩
      · rw [ih1]; omega
      · rw [ih2]; omega
    · have hp : BitWriter.pushBit w b = ⟨w.bytes, w.current * 2 % 256 + b, w.count + 1⟩ := by
        simp [BitWriter.pushBit, hc]
      rw [hp]
      obtain ⟨ih1, ih2⟩ := ih ⟨w.bytes, w.current * 2 % 256 + b, w.count + 1⟩
        (show w.count + 1 < 8 by omega)
      simp only [List.length_cons] at ih1 ih2 ⊢
      refine ⟨?_, ?_⟩
      · rw [ih1]; omega
      · rw [ih2]; omega

theorem write_bits_len (w : BitWriter) (v k : ℕ) (h : w.count < 8) :
    (w.write_bits v k).bytes.length = w.bytes.length + (w.count + k) / 8 ∧
    (w.write_bits v k).count = (w.count + k) % 8 := by
  have := foldl_pushBit_len (writeBitSeq v k) w h
  simpa [BitWriter.write_bits, writeBitSeq] using this

theorem finish_len (w : BitWriter) :
    w.finish.length = w.bytes.length + if 0 < w.count then 1 else 0 := by
  unfold BitWriter.finish
  split <;> simp

/-- State of the MSB-first bit reader from src/frame.rs. -/
structure BitReader where
  data : List ℕ
  byte_pos : ℕ
  bit_pos : ℕ

/-- The loop body of `BitReader::read_bits`, iterated `numBits` times:
`value <<= 1` (mod 256 for the `u8`), and if the position is within the
buffer, OR in the next bit MSB-first and advance; otherwise leave the
position alone (the shifted-in bit stays 0). -/
def readBitsAux : ℕ → ℕ → BitReader → ℕ × BitReader
  | 0, v, s => (v, s)
  | n + 1, v, s =>
    if h : s.byte_pos < s.data.length then
      let bit := s.data.get ⟨s.byte_pos, h⟩ / 2 ^ (7 - s.bit_pos) % 2
      let s' := if s.bit_pos + 1 = 8
        then { s with bit_pos := 0, byte_pos := s.byte_pos + 1 }
        else { s with bit_pos := s.bit_pos + 1 }
      readBitsAux n (v * 2 % 256 + bit) s'
    else readBitsAux n (v * 2 % 256) s

/-- `BitReader::read_bits` from src/frame.rs. -/
def BitReader.read_bits (s : BitReader) (numBits : ℕ) : ℕ × BitReader :=
  readBitsAux numBits 0 s

/-- The bit of the byte stream `data` at absolute bit position `pos`,
MSB-first, 0 past the end of the data. -/
def streamBit (data : List ℕ) (pos : ℕ) : ℕ :=
  data.getD (pos / 8) 0 / 2 ^ (7 - pos % 8) % 2

/-- Reference value of reading `k` bits MSB-first starting at absolute bit
position `p`, with accumulator `acc`: the remaining real bits of `data`
followed by zero bits. -/
def bitsVal (data : List ℕ) : ℕ → ℕ → ℕ → ℕ
  | _, 0, acc => acc
  | p, k + 1, acc => bitsVal data (p + 1) k (acc * 2 + streamBit data p)

theorem readBitsAux_past_end (k : ℕ) : ∀ (v : ℕ) (s : BitReader),
    s.data.length ≤ s.byte_pos → v * 2 ^ k < 256 →
    readBitsAux k v s = (v * 2 ^ k, s) := by
  induction k with
  | zero => intro v s h hv; simp [readBitsAux]
  | succ k ih =>
    intro v s h hv
    have h2 : v * 2 * 2 ^ k < 256 := by
      have : v * 2 * 2 ^ k = v * 2 ^ (k + 1) := by ring
      rw [this]; exact hv
    have hm : v * 2 % 256 = v * 2 := by
      apply Nat.mod_eq_of_lt
      have h1 : 1 ≤ 2 ^ k := Nat.one_le_two_pow
      calc v * 2 = v * 2 * 1 := by ring
        _ ≤ v * 2 * 2 ^ k := Nat.mul_le_mul_left _ h1
        _ < 256 := h2
    have hrw : v * 2 * 2 ^ k = v * 2 ^ (k + 1) := by ring
    rw [readBitsAux, dif_neg (by omega), hm, ih (v * 2) s h h2, hrw]

theorem bitsVal_zeros (k : ℕ) : ∀ (data : List ℕ) (p v : ℕ),
    data.length ≤ p / 8 → bitsVal data p k v = v * 2 ^ k := by
  induction k with
  | zero => intro data p v h; simp [bitsVal]
  | succ k ih =>
    intro data p v h
    rw [bitsVal]
    have hz : streamBit data p = 0 := by
      unfold streamBit
      rw [List.getD_eq_default _ _ h]
      simp
    rw [hz, ih data (p + 1) (v * 2 + 0) (by omega)]
    ring

theorem readBitsAux_spec (k : ℕ) : ∀ (v : ℕ) (s : BitReader),
    s.bit_pos < 8 → k ≤ 8 → v < 2 ^ (8 - k) →
    (readBitsAux k v s).1 = bitsVal s.data (s.byte_pos * 8 + s.bit_pos) k v := by
  induction k with
  | zero => intro v s _ _ _; simp [readBitsAux, bitsVal]
  | succ k ih =>
    intro v s hr hk hv
    have hvlt : v * 2 < 256 := by
      have h1 : (2 : ℕ) ^ (8 - (k + 1)) * 2 ≤ 2 ^ 8 := by
        rw [← pow_succ]
        exact Nat.pow_le_pow_right (by norm_num) (by omega)
      have := Nat.mul_lt_mul_of_lt_of_le hv (le_refl 2) (by norm_num)
      omega
    have hm : v * 2 % 256 = v * 2 := Nat.mod_eq_of_lt hvlt
    rw [readBitsAux, bitsVal]
    by_cases hb : s.byte_pos < s.data.length
    · rw [dif_pos hb]
      have hdiv : (s.byte_pos * 8 + s.bit_pos) / 8 = s.byte_pos := by omega
      have hmod : (s.byte_pos * 8 + s.bit_pos) % 8 = s.bit_pos := by omega
      have hbit : s.data.get ⟨s.byte_pos, hb⟩ / 2 ^ (7 - s.bit_pos) % 2 =
          streamBit s.data (s.byte_pos * 8 + s.bit_pos) := by
        unfold streamBit
        rw [hdiv, hmod, List.getD_eq_getElem _ _ hb]
        rfl
      by_cases h8 : s.bit_pos + 1 = 8
      · rw [if_pos h8, hm]
        have := ih (v * 2 + s.data.get ⟨s.byte_pos, hb⟩ / 2 ^ (7 - s.bit_pos) % 2)
          { s with bit_pos := 0, byte_pos := s.byte_pos + 1 }
          (by simp) (by omega)
          (by
            have hb2 : s.data.get ⟨s.byte_pos, hb⟩ / 2 ^ (7 - s.bit_pos) % 2 < 2 :=
              Nat.mod_lt _ (by norm_num)
            have : 2 ^ (8 - (k + 1)) * 2 = 2 ^ (8 - k) := by
              rw [← pow_succ]
              congr 1
              omega
            omega)
        simp only at this
        rw [this, hbit]
        congr 1
        omega
      · rw [if_neg h8, hm]
        have := ih (v * 2 + s.data.get ⟨s.byte_pos, hb⟩ / 2 ^ (7 - s.bit_pos) % 2)
          { s with bit_pos := s.bit_pos + 1 }
          (by simp; omega) (by omega)
          (by
            have hb2 : s.data.get ⟨s.byte_pos, hb⟩ / 2 ^ (7 - s.bit_pos) % 2 < 2 :=
              Nat.mod_lt _ (by norm_num)
            have : 2 ^ (8 - (k + 1)) * 2 = 2 ^ (8 - k) := by
              rw [← pow_succ]
              congr 1
              omega
            omega)
        simp only at this
        rw [this, hbit, ← Nat.add_assoc]
    · rw [dif_neg hb, hm]
      push_neg at hb
      have hdiv : s.data.length ≤ (s.byte_pos * 8 + s.bit_pos) / 8 := by omega
      have hz : streamBit s.data (s.byte_pos * 8 + s.bit_pos) = 0 := by
        unfold streamBit
        rw [List.getD_eq_default _ _ (by omega)]
        simp
      rw [hz]
      have hlt : v * 2 * 2 ^ k < 256 := by
        have h1 : v * 2 < 2 ^ (8 - (k + 1)) * 2 :=
          (Nat.mul_lt_mul_right (by norm_num)).mpr hv
        have h1p : v * 2 * 2 ^ k < 2 ^ (8 - (k + 1)) * 2 * 2 ^ k :=
          (Nat.mul_lt_mul_right (pow_pos (by norm_num) k)).mpr h1
        have h2 : 2 ^ (8 - (k + 1)) * 2 * 2 ^ k ≤ 2 ^ 8 := by
          rw [mul_assoc, mul_comm 2 (2 ^ k), ← pow_succ, ← pow_add]
          exact Nat.pow_le_pow_right (by norm_num) (by omega)
        omega
      rw [readBitsAux_past_end k (v * 2) s (by omega) hlt]
      rw [bitsVal_zeros k s.data (s.byte_pos * 8 + s.bit_pos + 1) (v * 2 + 0) (by omega)]
      simp

/-- C8: the bit reader, from any in-invariant state, returns the remaining
real bits of the buffer followed by zero bits (MSB-first); once the read
position has passed the end of the buffer every requested bit is 0 and the
reader returns without error and without moving. -/
theorem claim_C8 :
    (∀ (s : BitReader) (k : ℕ), s.bit_pos < 8 → k ≤ 8 →
      (s.read_bits k).1 = bitsVal s.data (s.byte_pos * 8 + s.bit_pos) k 0) ∧
    (∀ (s : BitReader) (k : ℕ), s.data.length ≤ s.byte_pos →
      s.read_bits k = (0, s)) := by
  constructor
  · intro s k h1 h2
    exact readBitsAux_spec k 0 s h1 h2 (Nat.pos_pow_of_pos _ (by norm_num))
  · intro s k h
    have := readBitsAux_past_end k 0 s h (by simp)
    simpa [BitReader.read_bits] using this

/-- Witness for C8: a 4-bit read straddling the end of a one-byte buffer
(171 = 0b10101011, starting at bit 6: bits 1,1,0,0), and a past-end read. -/
theorem claim_C8_witness :
    (BitReader.read_bits ⟨[171], 0, 6⟩ 4).1 = bitsVal [171] (0 * 8 + 6) 4 0 ∧
    BitReader.read_bits ⟨[171], 1, 0⟩ 3 = (0, ⟨[171], 1, 0⟩) :=
  ⟨claim_C8.1 ⟨[171], 0, 6⟩ 4 (by decide) (by decide),
   claim_C8.2 ⟨[171], 1, 0⟩ 3 (by decide)⟩

/-! ## Frame geometry constants (src/config.rs) -/

def FRAME_WIDTH : ℕ := 3840

def FRAME_HEIGHT : ℕ := 2160

def HEADER_ROWS : ℕ := 2

def HEADER_COPIES : ℕ := 3

def PROTOCOL_VERSION : ℕ := 1

/-! ## Block reading and header-area decoding (src/frame.rs) -/

/-- An RGB pixel; channel values are bytes. -/
structure Rgb where
  r : ℕ
  g : ℕ
  b : ℕ

/-- An RGB image, modelled as its dimensions and a total pixel function
(the Rust `RgbImage` panics on out-of-range access; all accesses made by the
embedded code are within 0..width and 0..height for the images the claims
range over). -/
structure RgbImage where
  width : ℕ
  height : ℕ
  pixel : ℕ → ℕ → Rgb

/-- Insertion into a sorted list, for the embedding of `sort_unstable`. -/
def insertSorted (x : ℕ) : List ℕ → List ℕ
  | [] => [x]
  | y :: ys => if x ≤ y then x :: y :: ys else y :: insertSorted x ys

/-- Sorting of a channel sample list (models `Vec::sort_unstable`; any
correct sort gives the same multiset, and only the element at index
`len / 2` is consumed). -/
def sortBytes (l : List ℕ) : List ℕ := l.foldr insertSorted []

/-- The per-channel sample list gathered by the `read_block` loops
(dy outer, dx inner). -/
def blockChannel (img : RgbImage) (lx ly blockSize : ℕ) (ch : Rgb → ℕ) : List ℕ :=
  (List.range blockSize).bind fun dy =>
    (List.range blockSize).map fun dx =>
      ch (img.pixel (lx * blockSize + dx) (ly * blockSize + dy))

/-- `read_block` from src/frame.rs: sort each channel of the BxB block, take
the element at index len/2 and dequantize it.  (`getD _ _ 0` models the
index expression, which in Rust would panic on an empty block; the claims
only use positive block sizes.) -/
def read_block (img : RgbImage) (lx ly blockSize levels : ℕ) : Rgb :=
  let rs := sortBytes (blockChannel img lx ly blockSize Rgb.r)
  let gs := sortBytes (blockChannel img lx ly blockSize Rgb.g)
  let bs := sortBytes (blockChannel img lx ly blockSize Rgb.b)
  let mid := rs.length / 2
  ⟨dequantize (rs.getD mid 0) levels,
   dequantize (gs.getD mid 0) levels,
   dequantize (bs.getD mid 0) levels⟩

/-- The logical coordinates traversed by the header-area loops: ly in
0..HEADER_ROWS (outer), lx in 0..lw (inner). -/
def headerCoords (lw : ℕ) : List (ℕ × ℕ) :=
  ((List.range HEADER_ROWS).map fun ly =>
    (List.range lw).map fun lx => (lx, ly)).join

/-- One step of the `decode_header_area` loop: read a block and write its
three channel levels, `bpc` bits each. -/
def headerStep (img : RgbImage) (blockSize levels bpc : ℕ)
    (w : BitWriter) (c : ℕ × ℕ) : BitWriter :=
  let p := read_block img c.1 c.2 blockSize levels
  ((w.write_bits p.r bpc).write_bits p.g bpc).write_bits p.b bpc

/-- `decode_header_area` from src/frame.rs.  `lw = img.width() / block_size`;
`bpc = (levels as f64).log2() as u8`, which for every byte value of `levels`
equals `Nat.log2 levels` (exact for powers of two, truncation otherwise). -/
def decode_header_area (img : RgbImage) (blockSize levels : ℕ) : List ℕ :=
  ((headerCoords (img.width / blockSize)).foldl
    (headerStep img blockSize levels (Nat.log2 levels)) BitWriter.new).finish

theorem headerCoords_length (lw : ℕ) : (headerCoords lw).length = 2 * lw := by
  unfold headerCoords HEADER_ROWS
  rw [List.range_succ, List.range_succ, List.range_zero]
  simp
  omega

theorem headerStep_len (img : RgbImage) (blockSize levels bpc : ℕ)
    (w : BitWriter) (c : ℕ × ℕ) (h : w.count < 8) :
    (headerStep img blockSize levels bpc w c).bytes.length =
      w.bytes.length + (w.count + 3 * bpc) / 8 ∧
    (headerStep img blockSize levels bpc w c).count = (w.count + 3 * bpc) % 8 := by
  unfold headerStep
  obtain ⟨a1, a2⟩ := write_bits_len w (read_block img c.1 c.2 blockSize levels).r bpc h
  obtain ⟨b1, b2⟩ := write_bits_len (w.write_bits (read_block img c.1 c.2 blockSize levels).r bpc)
    (read_block img c.1 c.2 blockSize levels).g bpc (by rw [a2]; exact Nat.mod_lt _ (by norm_num))
  obtain ⟨c1, c2⟩ := write_bits_len
    ((w.write_bits (read_block img c.1 c.2 blockSize levels).r bpc).write_bits
      (read_block img c.1 c.2 blockSize levels).g bpc)
    (read_block img c.1 c.2 blockSize levels).b bpc (by rw [b2]; exact Nat.mod_lt _ (by norm_num))
  rw [c1, b1, a1, c2, b2, a2]
  constructor <;> omega

theorem foldl_headerStep_len (img : RgbImage) (blockSize levels bpc : ℕ)
    (cs : List (ℕ × ℕ)) : ∀ w : BitWriter, w.count < 8 →
    ((cs.foldl (headerStep img blockSize levels bpc) w).bytes.length =
      w.bytes.length + (w.count + cs.length * (3 * bpc)) / 8 ∧
     (cs.foldl (headerStep img blockSize levels bpc) w).count =
      (w.count + cs.length * (3 * bpc)) % 8) := by
  induction cs with
  | nil => intro w h; refine ⟨?_, ?_⟩ <;> simp <;> omega
  | cons c cs ih =>
    intro w h
    rw [List.foldl_cons]
    obtain ⟨s1, s2⟩ := headerStep_len img blockSize levels bpc w c h
    obtain ⟨ih1, ih2⟩ := ih (headerStep img blockSize levels bpc w c)
      (by rw [s2]; exact Nat.mod_lt _ (by norm_num))
    rw [ih1, ih2, s1, s2]
    simp only [List.length_cons]
    have hmul : (cs.length + 1) * (3 * bpc) = cs.length * (3 * bpc) + 3 * bpc := by ring
    rw [hmul]
    generalize cs.length * (3 * bpc) = m
    constructor <;> omega

theorem decode_header_area_length (img : RgbImage) (blockSize levels : ℕ) :
    (decode_header_area img blockSize levels).length =
      (2 * (img.width / blockSize) * (3 * Nat.log2 levels) + 7) / 8 := by
  unfold decode_header_area
  obtain ⟨h1, h2⟩ := foldl_headerStep_len img blockSize levels (Nat.log2 levels)
    (headerCoords (img.width / blockSize)) BitWriter.new (by decide)
  rw [finish_len, h1, h2, headerCoords_length]
  simp only [BitWriter.new, List.length_nil, Nat.zero_add]
  generalize 2 * (img.width / blockSize) * (3 * Nat.log2 levels) = T
  by_cases hT : 0 < T % 8
  · rw [if_pos hT]; omega
  · rw [if_neg hT]; omega

theorem log2_two : Nat.log2 2 = 1 := by simp [Nat.log2]

theorem log2_four : Nat.log2 4 = 2 := by simp [Nat.log2]

theorem log2_eight : Nat.log2 8 = 3 := by simp [Nat.log2]

theorem log2_sixteen : Nat.log2 16 = 4 := by simp [Nat.log2]

/-- Specialization of `decode_header_area_length` to 3840-wide frames; the
statement avoids the structure projection `img.width`. -/
theorem decode_header_area_length_frame (pixel : ℕ → ℕ → Rgb) (B L : ℕ) :
    (decode_header_area ⟨3840, 2160, pixel⟩ B L).length =
      (2 * (3840 / B) * (3 * Nat.log2 L) + 7) / 8 :=
  decode_header_area_length ⟨3840, 2160, pixel⟩ B L

/-- C1 (amended): for every valid configuration (block_size in {1,2,4,8,16},
levels in {2,4,8,16}) and every 3840-wide frame image, `decode_header_area`
returns exactly ⌈LW · 2 · 3 · log₂(levels) / 8⌉ bytes; this count is at
least 270 for every valid configuration except (block_size, levels) =
(16, 2), where it is 180. -/
theorem claim_C1_amended :
    ∀ (pixel : ℕ → ℕ → Rgb), ∀ B ∈ ([1, 2, 4, 8, 16] : List ℕ), ∀ L ∈ ([2, 4, 8, 16] : List ℕ),
      (decode_header_area ⟨3840, 2160, pixel⟩ B L).length =
        (3840 / B * 2 * 3 * Nat.log2 L + 7) / 8 ∧
      (¬(B = 16 ∧ L = 2) → 270 ≤ (decode_header_area ⟨3840, 2160, pixel⟩ B L).length) := by
  intro pixel B hB L hL
  fin_cases hB <;> fin_cases hL <;>
    refine ⟨?_, fun h => ?_⟩ <;>
    (rw [decode_header_area_length_frame]
     first
     | rw [log2_two]
     | rw [log2_four]
     | rw [log2_eight]
     | rw [log2_sixteen]
     try omega)

/-- Witness for the amended C1 at (block_size, levels) = (2, 4):
2880 header-area bytes. -/
theorem claim_C1_witness :
    (decode_header_area ⟨3840, 2160, fun _ _ => ⟨1, 2, 3⟩⟩ 2 4).length =
      (3840 / 2 * 2 * 3 * Nat.log2 4 + 7) / 8 ∧
    (¬((2 : ℕ) = 16 ∧ (4 : ℕ) = 2) →
      270 ≤ (decode_header_area ⟨3840, 2160, fun _ _ => ⟨1, 2, 3⟩⟩ 2 4).length) :=
  claim_C1_amended (fun _ _ => ⟨1, 2, 3⟩) 2 (by decide) 4 (by decide)

/-- Counterexample to C1 as stated: the configuration (block_size, levels) =
(16, 2) is valid (16 divides 3840 and 2160, 2 is an allowed level count),
yet the header area yields only 180 bytes, below the 270-byte triple header. -/
theorem claim_C1_counterexample :
    (decode_header_area ⟨3840, 2160, fun _ _ => ⟨0, 0, 0⟩⟩ 16 2).length = 180 ∧
    ¬ 270 ≤ 180 := by
  refine ⟨?_, by norm_num⟩
  rw [decode_header_area_length_frame, log2_two]

/-! ## Error type (src/error.rs) -/

/-- The error enumeration of src/error.rs (payloads of the `Io` and `Image`
variants are modelled as their messages). -/
inductive VstorageError where
  | Io : String → VstorageError
  | Crypto : String → VstorageError
  | Ecc : String → VstorageError
  | Header : String → VstorageError
  | Ffmpeg : String → VstorageError
  | Config : String → VstorageError
  | Image : String → VstorageError
deriving DecidableEq

/-! ## Frame header (src/header.rs) -/

def HEADER_SIZE : ℕ := 90

/-- Big-endian byte encoding of `n` on `k` bytes, as produced by the Rust
`to_be_bytes` calls (`n < 256^k` for the machine-integer fields). -/
def toBytesBE : ℕ → ℕ → List ℕ
  | 0, _ => []
  | k + 1, n => n / 256 ^ k % 256 :: toBytesBE k n

/-- Big-endian byte decoding, as performed by the Rust `from_be_bytes`. -/
def fromBytesBE (l : List ℕ) : ℕ := l.foldl (fun acc b => acc * 256 + b) 0

theorem toBytesBE_length (k n : ℕ) : (toBytesBE k n).length = k := by
  induction k generalizing n with
  | zero => rfl
  | succ k ih => rw [toBytesBE]; simp [ih]

theorem foldl_toBytesBE (k : ℕ) : ∀ (n acc : ℕ),
    (toBytesBE k n).foldl (fun acc b => acc * 256 + b) acc =
      acc * 256 ^ k + n % 256 ^ k := by
  induction k with
  | zero => intro n acc; simp [toBytesBE, Nat.mod_one]
  | succ k ih =>
    intro n acc
    rw [toBytesBE, List.foldl_cons, ih]
    have key : n % 256 ^ (k + 1) = 256 ^ k * (n / 256 ^ k % 256) + n % 256 ^ k := by
      rw [pow_succ, Nat.mod_mul]
      ring
    rw [key, pow_succ]
    ring

theorem fromBytesBE_toBytesBE (k n : ℕ) (h : n < 256 ^ k) :
    fromBytesBE (toBytesBE k n) = n := by
  unfold fromBytesBE
  rw [foldl_toBytesBE k n 0]
  simp [Nat.mod_eq_of_lt h]

/-- The frame header of src/header.rs; machine-integer fields are `Nat`
(bounded by `ValidHeader`), fixed-size arrays are lists of bytes. -/
structure FrameHeader where
  version : ℕ
  frame_number : ℕ
  total_frames : ℕ
  block_size : ℕ
  levels : ℕ
  file_size : ℕ
  data_length : ℕ
  ecc_len : ℕ
  rs_data_len : ℕ
  nonce : List ℕ
  salt : List ℕ
  data_sha256 : List ℕ
deriving DecidableEq

/-- The representability invariant carried by the Rust types: `version`,
`block_size`, `levels`, `ecc_len` are `u8`; `frame_number`, `total_frames`,
`data_length` are `u32`; `file_size` is `u64`; `rs_data_len` is `u16`;
`nonce`, `salt`, `data_sha256` are `[u8; 12/16/32]`.  A valid header has
protocol version 1. -/
def ValidHeader (h : FrameHeader) : Prop :=
  h.version = PROTOCOL_VERSION ∧ h.frame_number < 256 ^ 4 ∧ h.total_frames < 256 ^ 4 ∧
  h.block_size < 256 ∧ h.levels < 256 ∧ h.file_size < 256 ^ 8 ∧
  h.data_length < 256 ^ 4 ∧ h.ecc_len < 256 ∧ h.rs_data_len < 256 ^ 2 ∧
  h.nonce.length = 12 ∧ h.salt.length = 16 ∧ h.data_sha256.length = 32

instance : DecidablePred ValidHeader := fun h => by unfold ValidHeader; infer_instance

/-- `FrameHeader::serialize` from src/header.rs: magic "VSTR" and the fields
at their fixed offsets of the 90-byte big-endian layout. -/
def FrameHeader.serialize (h : FrameHeader) : List ℕ :=
  [86, 83, 84, 82] ++ ([h.version] ++ (toBytesBE 4 h.frame_number ++
    (toBytesBE 4 h.total_frames ++ ([h.block_size] ++ ([h.levels] ++
      (toBytesBE 8 h.file_size ++ (toBytesBE 4 h.data_length ++ ([h.ecc_len] ++
        (toBytesBE 2 h.rs_data_len ++ (h.nonce ++ (h.salt ++ h.data_sha256)))))))))))

/-- `FrameHeader::deserialize` from src/header.rs: check length, magic and
version, then read every field at its offset (`buf[a..b]` becomes
`(buf.drop a).take (b-a)`, single bytes become `getD`). -/
def FrameHeader.deserialize (buf : List ℕ) : Except VstorageError FrameHeader :=
  if buf.length < HEADER_SIZE then .error (.Header "buffer too short")
  else if buf.take 4 ≠ [86, 83, 84, 82] then .error (.Header "invalid magic")
  else if buf.getD 4 0 ≠ PROTOCOL_VERSION then .error (.Header "unsupported version")
  else .ok {
    version := buf.getD 4 0
    frame_number := fromBytesBE ((buf.drop 5).take 4)
    total_frames := fromBytesBE ((buf.drop 9).take 4)
    block_size := buf.getD 13 0
    levels := buf.getD 14 0
    file_size := fromBytesBE ((buf.drop 15).take 8)
    data_length := fromBytesBE ((buf.drop 23).take 4)
    ecc_len := buf.getD 27 0
    rs_data_len := fromBytesBE ((buf.drop 28).take 2)
    nonce := (buf.drop 30).take 12
    salt := (buf.drop 42).take 16
    data_sha256 := (buf.drop 58).take 32 }

/-- `encode_header_triple` from src/header.rs: three copies of the
serialized header. -/
def encode_header_triple (h : FrameHeader) : List ℕ :=
  h.serialize ++ (h.serialize ++ h.serialize)

/-- `majority_vote` from src/header.rs. -/
def majority_vote (a b c : ℕ) : ℕ :=
  if a = b ∨ a = c then a else if b = c then b else a

/-- `decode_header_triple` from src/header.rs: require 270 bytes, byte-wise
majority vote of the three 90-byte copies, then deserialize. -/
def decode_header_triple (data : List ℕ) : Except VstorageError FrameHeader :=
  if data.length < HEADER_SIZE * 3 then
    .error (.Header "header data too short for triple decode")
  else
    FrameHeader.deserialize ((List.range HEADER_SIZE).map fun i =>
      majority_vote ((data.take HEADER_SIZE).getD i 0)
        (((data.drop HEADER_SIZE).take HEADER_SIZE).getD i 0)
        (((data.drop (HEADER_SIZE * 2)).take HEADER_SIZE).getD i 0))

theorem drop_append_len {α : Type} (l₁ l₂ : List α) (n : ℕ) (h : l₁.length = n) :
    (l₁ ++ l₂).drop n = l₂ := by subst h; exact List.drop_left l₁ l₂

theorem take_append_len {α : Type} (l₁ l₂ : List α) (n : ℕ) (h : l₁.length = n) :
    (l₁ ++ l₂).take n = l₁ := by subst h; exact List.take_left l₁ l₂

theorem getD_eq_getD_drop (l : List ℕ) (n d : ℕ) : l.getD n d = (l.drop n).getD 0 d := by
  rw [List.getD_eq_get?, List.getD_eq_get?]
  congr 1
  rw [List.get?_drop]
  norm_num

theorem getD_append_head (l₁ l₂ : List ℕ) (d : ℕ) (h : 0 < l₁.length) :
    (l₁ ++ l₂).getD 0 d = l₁.getD 0 d :=
  List.getD_append l₁ l₂ d 0 h

/-- Slice arithmetic for the 90-byte header layout: every field access of
`deserialize` lands on its own serialized group. -/
theorem deserialize_slices (p1 p2 p3 p4 p5 p6 p7 p8 p9 p10 p11 p12 : List ℕ)
    (h1 : p1.length = 1) (h2 : p2.length = 4) (h3 : p3.length = 4) (h4 : p4.length = 1)
    (h5 : p5.length = 1) (h6 : p6.length = 8) (h7 : p7.length = 4) (h8 : p8.length = 1)
    (h9 : p9.length = 2) (h10 : p10.length = 12) (h11 : p11.length = 16)
    (h12 : p12.length = 32) :
    ∀ S, S = [86, 83, 84, 82] ++ (p1 ++ (p2 ++ (p3 ++ (p4 ++ (p5 ++ (p6 ++ (p7 ++
        (p8 ++ (p9 ++ (p10 ++ (p11 ++ p12))))))))))) →
      S.length = 90 ∧ S.take 4 = [86, 83, 84, 82] ∧ S.getD 4 0 = p1.getD 0 0 ∧
      (S.drop 5).take 4 = p2 ∧ (S.drop 9).take 4 = p3 ∧ S.getD 13 0 = p4.getD 0 0 ∧
      S.getD 14 0 = p5.getD 0 0 ∧ (S.drop 15).take 8 = p6 ∧ (S.drop 23).take 4 = p7 ∧
      S.getD 27 0 = p8.getD 0 0 ∧ (S.drop 28).take 2 = p9 ∧ (S.drop 30).take 12 = p10 ∧
      (S.drop 42).take 16 = p11 ∧ (S.drop 58).take 32 = p12 := by
  intro S hS
  have d4 : S.drop 4 = p1 ++ (p2 ++ (p3 ++ (p4 ++ (p5 ++ (p6 ++ (p7 ++ (p8 ++
      (p9 ++ (p10 ++ (p11 ++ p12)))))))))) := by
    rw [hS]; exact drop_append_len _ _ 4 rfl
  have d5 : S.drop 5 = p2 ++ (p3 ++ (p4 ++ (p5 ++ (p6 ++ (p7 ++ (p8 ++
      (p9 ++ (p10 ++ (p11 ++ p12))))))))) := by
    have e : S.drop 5 = (S.drop 4).drop 1 := by rw [List.drop_drop]
    rw [e, d4]; exact drop_append_len _ _ 1 h1
  have d9 : S.drop 9 = p3 ++ (p4 ++ (p5 ++ (p6 ++ (p7 ++ (p8 ++ (p9 ++
      (p10 ++ (p11 ++ p12)))))))) := by
    have e : S.drop 9 = (S.drop 5).drop 4 := by rw [List.drop_drop]
    rw [e, d5]; exact drop_append_len _ _ 4 h2
  have d13 : S.drop 13 = p4 ++ (p5 ++ (p6 ++ (p7 ++ (p8 ++ (p9 ++
      (p10 ++ (p11 ++ p12))))))) := by
    have e : S.drop 13 = (S.drop 9).drop 4 := by rw [List.drop_drop]
    rw [e, d9]; exact drop_append_len _ _ 4 h3
  have d14 : S.drop 14 = p5 ++ (p6 ++ (p7 ++ (p8 ++ (p9 ++ (p10 ++
      (p11 ++ p12)))))) := by
    have e : S.drop 14 = (S.drop 13).drop 1 := by rw [List.drop_drop]
    rw [e, d13]; exact drop_append_len _ _ 1 h4
  have d15 : S.drop 15 = p6 ++ (p7 ++ (p8 ++ (p9 ++ (p10 ++ (p11 ++ p12))))) := by
    have e : S.drop 15 = (S.drop 14).drop 1 := by rw [List.drop_drop]
    rw [e, d14]; exact drop_append_len _ _ 1 h5
  have d23 : S.drop 23 = p7 ++ (p8 ++ (p9 ++ (p10 ++ (p11 ++ p12)))) := by
    have e : S.drop 23 = (S.drop 15).drop 8 := by rw [List.drop_drop]
    rw [e, d15]; exact drop_append_len _ _ 8 h6
  have d27 : S.drop 27 = p8 ++ (p9 ++ (p10 ++ (p11 ++ p12))) := by
    have e : S.drop 27 = (S.drop 23).drop 4 := by rw [List.drop_drop]
    rw [e, d23]; exact drop_append_len _ _ 4 h7
  have d28 : S.drop 28 = p9 ++ (p10 ++ (p11 ++ p12)) := by
    have e : S.drop 28 = (S.drop 27).drop 1 := by rw [List.drop_drop]
    rw [e, d27]; exact drop_append_len _ _ 1 h8
  have d30 : S.drop 30 = p10 ++ (p11 ++ p12) := by
    have e : S.drop 30 = (S.drop 28).drop 2 := by rw [List.drop_drop]
    rw [e, d28]; exact drop_append_len _ _ 2 h9
  have d42 : S.drop 42 = p11 ++ p12 := by
    have e : S.drop 42 = (S.drop 30).drop 12 := by rw [List.drop_drop]
    rw [e, d30]; exact drop_append_len _ _ 12 h10
  have d58 : S.drop 58 = p12 := by
    have e : S.drop 58 = (S.drop 42).drop 16 := by rw [List.drop_drop]
    rw [e, d42]; exact drop_append_len _ _ 16 h11
  refine ⟨?_, ?_, ?_, ?_, ?_, ?_, ?_, ?_, ?_, ?_, ?_, ?_, ?_, ?_⟩
  · rw [hS]
    simp only [List.length_append, List.length_cons, List.length_nil, h1, h2, h3, h4,
      h5, h6, h7, h8, h9, h10, h11, h12]
  · rw [hS]; exact take_append_len _ _ 4 rfl
  · rw [getD_eq_getD_drop, d4]; exact getD_append_head _ _ 0 (by omega)
  · rw [d5]; exact take_append_len _ _ 4 h2
  · rw [d9]; exact take_append_len _ _ 4 h3
  · rw [getD_eq_getD_drop, d13]; exact getD_append_head _ _ 0 (by omega)
  · rw [getD_eq_getD_drop, d14]; exact getD_append_head _ _ 0 (by omega)
  · rw [d15]; exact take_append_len _ _ 8 h6
  · rw [d23]; exact take_append_len _ _ 4 h7
  · rw [getD_eq_getD_drop, d27]; exact getD_append_head _ _ 0 (by omega)
  · rw [d28]; exact take_append_len _ _ 2 h9
  · rw [d30]; exact take_append_len _ _ 12 h10
  · rw [d42]; exact take_append_len _ _ 16 h11
  · rw [d58, show (32 : ℕ) = p12.length from h12.symm]; exact List.take_length p12

theorem serialize_length (h : FrameHeader) (hv : ValidHeader h) :
    h.serialize.length = 90 := by
  obtain ⟨-, -, -, -, -, -, -, -, -, hnon, hsal, hsha⟩ := hv
  unfold FrameHeader.serialize
  simp only [List.length_append, List.length_cons, List.length_nil, toBytesBE_length,
    hnon, hsal, hsha]

/-- P4: deserialization undoes serialization of every valid header. -/
theorem deserialize_serialize (h : FrameHeader) (hv : ValidHeader h) :
    FrameHeader.deserialize h.serialize = .ok h := by
  obtain ⟨hver, hfn, htf, hbs, hlv, hfs, hdl, hec, hrs, hnon, hsal, hsha⟩ := hv
  obtain ⟨hlen, hmag, hg4, hd5, hd9, hg13, hg14, hd15, hd23, hg27, hd28, hd30, hd42, hd58⟩ :=
    deserialize_slices [h.version] (toBytesBE 4 h.frame_number) (toBytesBE 4 h.total_frames)
      [h.block_size] [h.levels] (toBytesBE 8 h.file_size) (toBytesBE 4 h.data_length)
      [h.ecc_len] (toBytesBE 2 h.rs_data_len) h.nonce h.salt h.data_sha256
      rfl (toBytesBE_length 4 _) (toBytesBE_length 4 _) rfl rfl (toBytesBE_length 8 _)
      (toBytesBE_length 4 _) rfl (toBytesBE_length 2 _) hnon hsal hsha
      h.serialize rfl
  unfold FrameHeader.deserialize
  rw [if_neg (by rw [hlen]; decide)]
  rw [if_neg (by rw [hmag]; simp)]
  rw [if_neg (by rw [hg4]; simp [List.getD_cons_zero, hver])]
  rw [hg4, hd5, hd9, hg13, hg14, hd15, hd23, hg27, hd28, hd30, hd42, hd58]
  simp only [List.getD_cons_zero]
  rw [fromBytesBE_toBytesBE 4 _ hfn, fromBytesBE_toBytesBE 4 _ htf,
    fromBytesBE_toBytesBE 8 _ hfs, fromBytesBE_toBytesBE 4 _ hdl,
    fromBytesBE_toBytesBE 2 _ hrs]

theorem majority_vote_corrupt_first (x y : ℕ) : majority_vote x y y = y := by
  unfold majority_vote
  by_cases hxy : x = y
  · subst hxy; simp
  · rw [if_neg (by simp [hxy]), if_pos rfl]

theorem majority_vote_corrupt_mid (x y : ℕ) : majority_vote y x y = y := by
  unfold majority_vote
  rw [if_pos (Or.inr rfl)]

theorem majority_vote_corrupt_last (x y : ℕ) : majority_vote y y x = y := by
  unfold majority_vote
  rw [if_pos (Or.inl rfl)]

theorem map_getD_range (l : List ℕ) :
    (List.range l.length).map (fun i => l.getD i 0) = l := by
  induction l with
  | nil => rfl
  | cons x xs ih =>
    rw [List.length_cons, List.range_succ_eq_map, List.map_cons, List.map_map,
      List.getD_cons_zero]
    have e : List.map ((fun i => (x :: xs).getD i 0) ∘ Nat.succ) (List.range xs.length) =
        List.map (fun i => xs.getD i 0) (List.range xs.length) :=
      List.map_congr_left fun i _ => by
        simp [Function.comp, Nat.succ_eq_add_one, List.getD_cons_succ]
    rw [e, ih]

/-- C4: decoding the triple header recovers every valid header when any one
of the three 90-byte copies is fully replaced by arbitrary bytes. -/
theorem claim_C4 (h : FrameHeader) (hv : ValidHeader h) (junk : List ℕ)
    (hj : junk.length = 90) :
    decode_header_triple (junk ++ (h.serialize ++ h.serialize)) = .ok h ∧
    decode_header_triple (h.serialize ++ (junk ++ h.serialize)) = .ok h ∧
    decode_header_triple (h.serialize ++ (h.serialize ++ junk)) = .ok h := by
  have hsl : h.serialize.length = 90 := serialize_length h hv
  have htake : h.serialize.take HEADER_SIZE = h.serialize := by
    rw [show HEADER_SIZE = h.serialize.length from by rw [hsl, HEADER_SIZE]]
    exact List.take_length _
  refine ⟨?_, ?_, ?_⟩
  · unfold decode_header_triple
    rw [if_neg (by simp only [List.length_append, hj, hsl]; decide)]
    have s1 : (junk ++ (h.serialize ++ h.serialize)).take HEADER_SIZE = junk :=
      take_append_len _ _ _ (by rw [hj, HEADER_SIZE])
    have d1 : (junk ++ (h.serialize ++ h.serialize)).drop HEADER_SIZE =
        h.serialize ++ h.serialize := drop_append_len _ _ _ (by rw [hj, HEADER_SIZE])
    have s2 : ((junk ++ (h.serialize ++ h.serialize)).drop HEADER_SIZE).take HEADER_SIZE =
        h.serialize := by rw [d1]; exact take_append_len _ _ _ (by rw [hsl, HEADER_SIZE])
    have s3 : ((junk ++ (h.serialize ++ h.serialize)).drop (HEADER_SIZE * 2)).take
        HEADER_SIZE = h.serialize := by
      have e : (junk ++ (h.serialize ++ h.serialize)).drop (HEADER_SIZE * 2) =
          ((junk ++ (h.serialize ++ h.serialize)).drop HEADER_SIZE).drop HEADER_SIZE := by
        rw [show HEADER_SIZE * 2 = HEADER_SIZE + HEADER_SIZE from by omega, ← List.drop_drop]
      rw [e, d1, drop_append_len _ _ _ (by rw [hsl, HEADER_SIZE]), htake]
    simp only [s1, s2, s3]
    have voted : ((List.range HEADER_SIZE).map fun i =>
        majority_vote (junk.getD i 0) (h.serialize.getD i 0) (h.serialize.getD i 0)) =
        h.serialize := by
      rw [List.map_congr_left fun i _ => majority_vote_corrupt_first (junk.getD i 0)
        (h.serialize.getD i 0)]
      rw [show HEADER_SIZE = h.serialize.length from by rw [hsl, HEADER_SIZE]]
      exact map_getD_range _
    rw [voted]
    exact deserialize_serialize h hv
  · unfold decode_header_triple
    rw [if_neg (by simp only [List.length_append, hj, hsl]; decide)]
    have s1 : (h.serialize ++ (junk ++ h.serialize)).take HEADER_SIZE = h.serialize :=
      take_append_len _ _ _ (by rw [hsl, HEADER_SIZE])
    have d1 : (h.serialize ++ (junk ++ h.serialize)).drop HEADER_SIZE =
        junk ++ h.serialize := drop_append_len _ _ _ (by rw [hsl, HEADER_SIZE])
    have s2 : ((h.serialize ++ (junk ++ h.serialize)).drop HEADER_SIZE).take HEADER_SIZE =
        junk := by rw [d1]; exact take_append_len _ _ _ (by rw [hj, HEADER_SIZE])
    have s3 : ((h.serialize ++ (junk ++ h.serialize)).drop (HEADER_SIZE * 2)).take
        HEADER_SIZE = h.serialize := by
      have e : (h.serialize ++ (junk ++ h.serialize)).drop (HEADER_SIZE * 2) =
          ((h.serialize ++ (junk ++ h.serialize)).drop HEADER_SIZE).drop HEADER_SIZE := by
        rw [show HEADER_SIZE * 2 = HEADER_SIZE + HEADER_SIZE from by omega, ← List.drop_drop]
      rw [e, d1, drop_append_len _ _ _ (by rw [hj, HEADER_SIZE]), htake]
    simp only [s1, s2, s3]
    have voted : ((List.range HEADER_SIZE).map fun i =>
        majority_vote (h.serialize.getD i 0) (junk.getD i 0) (h.serialize.getD i 0)) =
        h.serialize := by
      rw [List.map_congr_left fun i _ => majority_vote_corrupt_mid (junk.getD i 0)
        (h.serialize.getD i 0)]
      rw [show HEADER_SIZE = h.serialize.length from by rw [hsl, HEADER_SIZE]]
      exact map_getD_range _
    rw [voted]
    exact deserialize_serialize h hv
  · unfold decode_header_triple
    rw [if_neg (by simp only [List.length_append, hj, hsl]; decide)]
    have s1 : (h.serialize ++ (h.serialize ++ junk)).take HEADER_SIZE = h.serialize :=
      take_append_len _ _ _ (by rw [hsl, HEADER_SIZE])
    have d1 : (h.serialize ++ (h.serialize ++ junk)).drop HEADER_SIZE =
        h.serialize ++ junk := drop_append_len _ _ _ (by rw [hsl, HEADER_SIZE])
    have s2 : ((h.serialize ++ (h.serialize ++ junk)).drop HEADER_SIZE).take HEADER_SIZE =
        h.serialize := by rw [d1]; exact take_append_len _ _ _ (by rw [hsl, HEADER_SIZE])
    have s3 : ((h.serialize ++ (h.serialize ++ junk)).drop (HEADER_SIZE * 2)).take
        HEADER_SIZE = junk := by
      have e : (h.serialize ++ (h.serialize ++ junk)).drop (HEADER_SIZE * 2) =
          ((h.serialize ++ (h.serialize ++ junk)).drop HEADER_SIZE).drop HEADER_SIZE := by
        rw [show HEADER_SIZE * 2 = HEADER_SIZE + HEADER_SIZE from by omega, ← List.drop_drop]
      rw [e, d1, drop_append_len _ _ _ (by rw [hsl, HEADER_SIZE])]
      rw [show HEADER_SIZE = junk.length from by rw [hj, HEADER_SIZE]]
      exact List.take_length _
    simp only [s1, s2, s3]
    have voted : ((List.range HEADER_SIZE).map fun i =>
        majority_vote (h.serialize.getD i 0) (h.serialize.getD i 0) (junk.getD i 0)) =
        h.serialize := by
      rw [List.map_congr_left fun i _ => majority_vote_corrupt_last (junk.getD i 0)
        (h.serialize.getD i 0)]
      rw [show HEADER_SIZE = h.serialize.length from by rw [hsl, HEADER_SIZE]]
      exact map_getD_range _
    rw [voted]
    exact deserialize_serialize h hv

/-- Witness for C4: a concrete valid header with the middle copy (and the
other two positions) replaced by 0xFF bytes. -/
theorem claim_C4_witness :
    decode_header_triple (List.replicate 90 255 ++
      ((FrameHeader.mk 1 42 100 2 4 123456789 65535 32 223 (List.replicate 12 1)
        (List.replicate 16 2) (List.replicate 32 3)).serialize ++
       (FrameHeader.mk 1 42 100 2 4 123456789 65535 32 223 (List.replicate 12 1)
        (List.replicate 16 2) (List.replicate 32 3)).serialize)) =
      .ok (FrameHeader.mk 1 42 100 2 4 123456789 65535 32 223 (List.replicate 12 1)
        (List.replicate 16 2) (List.replicate 32 3)) ∧
    decode_header_triple ((FrameHeader.mk 1 42 100 2 4 123456789 65535 32 223
        (List.replicate 12 1) (List.replicate 16 2) (List.replicate 32 3)).serialize ++
      (List.replicate 90 255 ++
       (FrameHeader.mk 1 42 100 2 4 123456789 65535 32 223 (List.replicate 12 1)
        (List.replicate 16 2) (List.replicate 32 3)).serialize)) =
      .ok (FrameHeader.mk 1 42 100 2 4 123456789 65535 32 223 (List.replicate 12 1)
        (List.replicate 16 2) (List.replicate 32 3)) ∧
    decode_header_triple ((FrameHeader.mk 1 42 100 2 4 123456789 65535 32 223
        (List.replicate 12 1) (List.replicate 16 2) (List.replicate 32 3)).serialize ++
      ((FrameHeader.mk 1 42 100 2 4 123456789 65535 32 223 (List.replicate 12 1)
        (List.replicate 16 2) (List.replicate 32 3)).serialize ++
       List.replicate 90 255)) =
      .ok (FrameHeader.mk 1 42 100 2 4 123456789 65535 32 223 (List.replicate 12 1)
        (List.replicate 16 2) (List.replicate 32 3)) :=
  claim_C4 (FrameHeader.mk 1 42 100 2 4 123456789 65535 32 223 (List.replicate 12 1)
      (List.replicate 16 2) (List.replicate 32 3))
    (by unfold ValidHeader; decide) (List.replicate 90 255) (by decide)

/-! ## Reed-Solomon stage (src/ecc.rs)

The GF(256) encoder/decoder live in the external `reed_solomon` crate, not
in this repository; following the specification they are modelled as
parameters: `parity` (the parity bytes appended by `Encoder::encode`, a
systematic code: each 255-byte block is data ‖ parity) and `correct`
(`Decoder::correct`, which repairs up to ⌊ecc_len/2⌋ errored bytes of a
block and otherwise fails).  The chunking, padding, assembling, block
slicing, error construction and truncation below are the repository's own
code from src/ecc.rs. -/

/-- `data.chunks(r)` from the `rs_encode` loop: chunks of `r` bytes, the
last one possibly short.  (Rust panics on `r = 0`; that case is unreachable
for the claims, which require `ecc_len ≤ 254`.) -/
def listChunks (r : ℕ) (l : List ℕ) : List (List ℕ) :=
  if h : l = [] ∨ r = 0 then [] else l.take r :: listChunks r (l.drop r)
termination_by l.length
decreasing_by
  push_neg at h
  have h1 : 0 < l.length := List.length_pos.mpr h.1
  have h2 : 0 < r := Nat.pos_of_ne_zero h.2
  simp only [List.length_drop]
  omega

/-- Zero-padding of a short final chunk, from `rs_encode`. -/
def padChunk (r : ℕ) (c : List ℕ) : List ℕ :=
  if c.length < r then c ++ List.replicate (r - c.length) 0 else c

/-- `rs_encode` from src/ecc.rs: pad each chunk to `rs_data_len`, encode it
(data ‖ parity, modelled by the `parity` parameter), push the first
`rs_data_len + ecc_len` bytes of each block (`take` mirrors the index
loop `for i in 0..rs_data_len + ecc_len`). -/
def rs_encode (parity : List ℕ → List ℕ) (eccLen rsDataLen : ℕ)
    (data : List ℕ) : List ℕ :=
  ((listChunks rsDataLen data).map fun c =>
    (padChunk rsDataLen c ++ parity (padChunk rsDataLen c)).take
      (rsDataLen + eccLen)).join

/-- The `for i in 0..num_blocks` loop of `rs_decode`, with early return on
errors: check that block `i` is complete, run `correct` on it, append the
data portion of the corrected block. -/
def rsDecodeLoop (correct : List ℕ → Except String (List ℕ))
    (blockLen rsDataLen : ℕ) (data : List ℕ) :
    List ℕ → List ℕ → Except VstorageError (List ℕ)
  | [], acc => .ok acc
  | i :: rest, acc =>
    if i * blockLen + blockLen > data.length then
      .error (.Ecc ("insufficient data for RS block " ++ toString i ++ ": need " ++
        toString (i * blockLen + blockLen) ++ " bytes, have " ++
        toString data.length))
    else
      match correct ((data.drop (i * blockLen)).take blockLen) with
      | .ok corrected =>
        rsDecodeLoop correct blockLen rsDataLen data rest
          (acc ++ corrected.take rsDataLen)
      | .error e =>
        .error (.Ecc ("RS correction failed on block " ++ toString i ++ ": " ++ e))

/-- `rs_decode` from src/ecc.rs: process `⌈expected_data_len / rs_data_len⌉`
blocks of `rs_data_len + ecc_len` bytes, then truncate the reassembled
payload to `expected_data_len`.  (`correct` receives the received block;
the source copies it into a freshly encoded dummy buffer of the same
length, which is overwritten entirely.) -/
def rs_decode (correct : List ℕ → Except String (List ℕ))
    (eccLen rsDataLen expectedDataLen : ℕ) (data : List ℕ) :
    Except VstorageError (List ℕ) :=
  Except.map (fun res => res.take expectedDataLen)
    (rsDecodeLoop correct (rsDataLen + eccLen) rsDataLen data
      (List.range ((expectedDataLen + rsDataLen - 1) / rsDataLen)) [])

theorem rsDecodeLoop_append_extra (correct : List ℕ → Except String (List ℕ))
    (blockLen rsDataLen : ℕ) (data extra : List ℕ) :
    ∀ (l : List ℕ) (acc : List ℕ), (∀ i ∈ l, i * blockLen + blockLen ≤ data.length) →
    rsDecodeLoop correct blockLen rsDataLen (data ++ extra) l acc =
      rsDecodeLoop correct blockLen rsDataLen data l acc := by
  intro l
  induction l with
  | nil => intro acc _; rfl
  | cons i rest ih =>
    intro acc hall
    have hi : i * blockLen + blockLen ≤ data.length := hall i (by simp)
    rw [rsDecodeLoop, rsDecodeLoop]
    rw [if_neg (by simp only [List.length_append]; omega), if_neg (by omega)]
    have hblock : ((data ++ extra).drop (i * blockLen)).take blockLen =
        (data.drop (i * blockLen)).take blockLen := by
      rw [List.drop_append_of_le_length (by omega),
        List.take_append_of_le_length (by simp only [List.length_drop]; omega)]
    rw [hblock]
    cases hc : correct ((data.drop (i * blockLen)).take blockLen) with
    | ok c =>
      dsimp only
      exact ih (acc ++ c.take rsDataLen) fun j hj => hall j (by simp [hj])
    | error e => rfl

/-- C10: `rs_decode` examines only the first ⌈expected_data_len /
rs_data_len⌉ blocks of its input; appending arbitrary extra bytes beyond
those blocks never changes the result. -/
theorem claim_C10 (correct : List ℕ → Except String (List ℕ))
    (eccLen rsDataLen expectedDataLen : ℕ) (data extra : List ℕ)
    (h : ((expectedDataLen + rsDataLen - 1) / rsDataLen) * (rsDataLen + eccLen) ≤
      data.length) :
    rs_decode correct eccLen rsDataLen expectedDataLen (data ++ extra) =
      rs_decode correct eccLen rsDataLen expectedDataLen data := by
  unfold rs_decode
  rw [rsDecodeLoop_append_extra]
  intro i hi
  rw [List.mem_range] at hi
  have h2 : (i + 1) * (rsDataLen + eccLen) ≤
      ((expectedDataLen + rsDataLen - 1) / rsDataLen) * (rsDataLen + eccLen) :=
    Nat.mul_le_mul_right _ hi
  have e : (i + 1) * (rsDataLen + eccLen) =
      i * (rsDataLen + eccLen) + (rsDataLen + eccLen) := by ring
  omega

/-- Witness for C10: one complete 3-byte block (ecc_len 1, rs_data_len 2)
with two junk bytes appended; the decoder output is unchanged. -/
theorem claim_C10_witness :
    rs_decode (fun b => Except.ok b) 1 2 2 ([5, 6, 7] ++ [9, 9]) =
      rs_decode (fun b => Except.ok b) 1 2 2 [5, 6, 7] :=
  claim_C10 (fun b => Except.ok b) 1 2 2 [5, 6, 7] [9, 9] (by decide)

theorem listChunks_nil (r : ℕ) : listChunks r [] = [] := by
  rw [listChunks]
  simp

theorem listChunks_cons (r : ℕ) (l : List ℕ) (hl : l ≠ []) (hr : r ≠ 0) :
    listChunks r l = l.take r :: listChunks r (l.drop r) := by
  rw [listChunks]
  rw [dif_neg (by simp [hl, hr])]

theorem padChunk_length (r : ℕ) (c : List ℕ) (h : c.length ≤ r) :
    (padChunk r c).length = r := by
  unfold padChunk
  split
  · simp only [List.length_append, List.length_replicate]; omega
  · omega

theorem padChunk_eq_append (r : ℕ) (c : List ℕ) :
    padChunk r c = c ++ List.replicate (r - c.length) 0 := by
  unfold padChunk
  split
  · rfl
  · rw [Nat.sub_eq_zero_of_le (by omega), List.replicate_zero, List.append_nil]

theorem padChunk_full (r : ℕ) (c : List ℕ) (h : c.length = r) : padChunk r c = c := by
  unfold padChunk
  rw [if_neg (by omega)]

theorem take_all_len (l : List ℕ) (n : ℕ) (h : l.length = n) : l.take n = l := by
  subst h; exact List.take_length l

theorem rs_encode_nil (parity : List ℕ → List ℕ) (e r : ℕ) :
    rs_encode parity e r [] = [] := by
  unfold rs_encode
  rw [listChunks_nil]
  rfl

theorem rs_encode_cons (parity : List ℕ → List ℕ) (e r : ℕ) (d : List ℕ)
    (hl : d ≠ []) (hr : r ≠ 0) :
    rs_encode parity e r d =
      (padChunk r (d.take r) ++ parity (padChunk r (d.take r))).take (r + e) ++
      rs_encode parity e r (d.drop r) := by
  unfold rs_encode
  rw [listChunks_cons r d hl hr, List.map_cons]
  rfl

theorem rs_encode_block_length (parity : List ℕ → List ℕ) (e r : ℕ) (d : List ℕ)
    (hp : ∀ c, (parity c).length = e) (hr : 0 < r) (hd : d ≠ []) :
    ((padChunk r (d.take r) ++ parity (padChunk r (d.take r))).take (r + e)).length =
      r + e := by
  have hc : (d.take r).length ≤ r := by simp [List.length_take]
  rw [List.length_take, List.length_append, padChunk_length r _ hc, hp]
  omega

theorem rs_encode_length (parity : List ℕ → List ℕ) (e r : ℕ)
    (hp : ∀ c, (parity c).length = e) (hr : 0 < r) :
    ∀ n (d : List ℕ), d.length ≤ n →
    (rs_encode parity e r d).length = ((d.length + r - 1) / r) * (r + e) := by
  intro n
  induction n with
  | zero =>
    intro d hd
    have : d = [] := List.eq_nil_of_length_eq_zero (by omega)
    subst this
    rw [rs_encode_nil]
    simp only [List.length_nil]
    rw [Nat.div_eq_of_lt (by omega)]
    omega
  | succ n ih =>
    intro d hd
    by_cases hnil : d = []
    · subst hnil
      rw [rs_encode_nil]
      simp only [List.length_nil]
      rw [Nat.div_eq_of_lt (by omega)]
      omega
    · have h1 : 0 < d.length := List.length_pos.mpr hnil
      rw [rs_encode_cons parity e r d hnil (by omega), List.length_append,
        rs_encode_block_length parity e r d hp hr hnil,
        ih (d.drop r) (by simp only [List.length_drop]; omega)]
      simp only [List.length_drop]
      by_cases hler : d.length ≤ r
      · have hz : d.length - r = 0 := by omega
        rw [hz]
        rw [Nat.div_eq_of_lt (by omega)]
        have ho : (d.length + r - 1) / r = 1 := by
          have hlo : 1 * r ≤ d.length + r - 1 := by omega
          have hhi : d.length + r - 1 < (1 + 1) * r := by omega
          exact Nat.div_eq_of_lt_le hlo hhi
        rw [ho]
        omega
      · have e1 : d.length + r - 1 = (d.length - r + r - 1) + r := by omega
        rw [e1, Nat.add_div_right _ hr]
        ring

theorem rsDecodeLoop_acc (correct : List ℕ → Except String (List ℕ))
    (bl r : ℕ) (data : List ℕ) :
    ∀ (l acc : List ℕ),
    rsDecodeLoop correct bl r data l acc =
      Except.map (fun res => acc ++ res) (rsDecodeLoop correct bl r data l []) := by
  intro l
  induction l with
  | nil => intro acc; simp [rsDecodeLoop, Except.map]
  | cons i rest ih =>
    intro acc
    rw [rsDecodeLoop, rsDecodeLoop]
    by_cases hin : i * bl + bl > data.length
    · rw [if_pos hin, if_pos hin]; rfl
    · rw [if_neg hin, if_neg hin]
      cases hc : correct ((data.drop (i * bl)).take bl) with
      | ok c =>
        dsimp only
        rw [ih (acc ++ c.take r), ih ([] ++ c.take r)]
        cases rsDecodeLoop correct bl r data rest [] with
        | ok v => simp [Except.map, List.append_assoc]
        | error err => simp [Except.map]
      | error e2 => rfl

theorem rsDecodeLoop_shift (correct : List ℕ → Except String (List ℕ))
    (bl r : ℕ) (data : List ℕ) (hbl : bl ≤ data.length) (l : List ℕ) :
    ∀ (acc v : List ℕ),
    rsDecodeLoop correct bl r (data.drop bl) l acc = .ok v →
    rsDecodeLoop correct bl r data (l.map (· + 1)) acc = .ok v := by
  induction l with
  | nil => intro acc v h; simpa [rsDecodeLoop] using h
  | cons i rest ih =>
    intro acc v h
    rw [List.map_cons]
    rw [rsDecodeLoop] at h
    rw [rsDecodeLoop]
    by_cases hin : i * bl + bl > (data.drop bl).length
    · rw [if_pos hin] at h; exact absurd h (by simp)
    · rw [if_neg hin] at h
      have hin2 : ¬((i + 1) * bl + bl > data.length) := by
        simp only [List.length_drop] at hin
        have e : (i + 1) * bl = i * bl + bl := by ring
        omega
      rw [if_neg hin2]
      have hblock : (data.drop ((i + 1) * bl)).take bl =
          ((data.drop bl).drop (i * bl)).take bl := by
        rw [List.drop_drop]
        have e : (i + 1) * bl = bl + i * bl := by ring
        rw [e]
      rw [hblock]
      cases hc : correct (((data.drop bl).drop (i * bl)).take bl) with
      | ok c =>
        rw [hc] at h
        dsimp only at h
        dsimp only
        exact ih _ v h
      | error e2 =>
        rw [hc] at h
        dsimp only at h
        exact absurd h (by simp)

theorem rsDecodeLoop_encode (parity : List ℕ → List ℕ)
    (correct : List ℕ → Except String (List ℕ)) (e r : ℕ) (hr : 0 < r)
    (hp : ∀ c, (parity c).length = e)
    (hcorrect : ∀ c : List ℕ, c.length = r → correct (c ++ parity c) = .ok (c ++ parity c)) :
    ∀ n (d : List ℕ), d.length ≤ n →
    rsDecodeLoop correct (r + e) r (rs_encode parity e r d)
      (List.range ((d.length + r - 1) / r)) [] =
      .ok (((listChunks r d).map (padChunk r)).join) := by
  intro n
  induction n with
  | zero =>
    intro d hd
    have hdn : d = [] := List.eq_nil_of_length_eq_zero (by omega)
    subst hdn
    simp only [List.length_nil, listChunks_nil, List.map_nil]
    rw [Nat.div_eq_of_lt (by omega)]
    rfl
  | succ n ih =>
    intro d hd
    by_cases hnil : d = []
    · subst hnil
      simp only [List.length_nil, listChunks_nil, List.map_nil]
      rw [Nat.div_eq_of_lt (by omega)]
      rfl
    · have h1 : 0 < d.length := List.length_pos.mpr hnil
      have hct : (d.take r).length ≤ r := by simp [List.length_take]
      have hpad : (padChunk r (d.take r)).length = r := padChunk_length r _ hct
      have hbfull : (padChunk r (d.take r) ++ parity (padChunk r (d.take r))).take (r + e) =
          padChunk r (d.take r) ++ parity (padChunk r (d.take r)) :=
        take_all_len _ _ (by rw [List.length_append, hpad, hp])
      have hcor : correct (padChunk r (d.take r) ++ parity (padChunk r (d.take r))) =
          .ok (padChunk r (d.take r) ++ parity (padChunk r (d.take r))) :=
        hcorrect _ hpad
      have hE : rs_encode parity e r d =
          (padChunk r (d.take r) ++ parity (padChunk r (d.take r))).take (r + e) ++
          rs_encode parity e r (d.drop r) := rs_encode_cons parity e r d hnil (by omega)
      have hEblock : (rs_encode parity e r d).take (r + e) =
          padChunk r (d.take r) ++ parity (padChunk r (d.take r)) := by
        rw [hE, hbfull]
        exact take_append_len _ _ _ (by rw [List.length_append, hpad, hp])
      have hElen : (rs_encode parity e r d).length =
          ((d.length + r - 1) / r) * (r + e) :=
        rs_encode_length parity e r hp hr (d.length) d le_rfl
      have hchunks : listChunks r d = d.take r :: listChunks r (d.drop r) :=
        listChunks_cons r d hnil (by omega)
      by_cases hler : d.length ≤ r
      · have hnb : (d.length + r - 1) / r = 1 := by
          have hlo : 1 * r ≤ d.length + r - 1 := by omega
          have hhi : d.length + r - 1 < (1 + 1) * r := by omega
          exact Nat.div_eq_of_lt_le hlo hhi
        rw [hnb]
        rw [show List.range 1 = [0] from rfl]
        rw [rsDecodeLoop]
        rw [if_neg (by rw [hElen, hnb]; omega)]
        rw [Nat.zero_mul, List.drop_zero, hEblock, hcor]
        dsimp only
        rw [rsDecodeLoop]
        rw [List.nil_append, take_append_len _ _ r hpad]
        have hdrop : d.drop r = [] := by
          apply List.eq_nil_of_length_eq_zero
          simp only [List.length_drop]
          omega
        rw [hchunks, hdrop, listChunks_nil, List.map_cons, List.map_nil]
        simp
      · have hnb : (d.length + r - 1) / r = ((d.drop r).length + r - 1) / r + 1 := by
          simp only [List.length_drop]
          have e1 : d.length + r - 1 = (d.length - r + r - 1) + r := by omega
          rw [e1, Nat.add_div_right _ hr]
        rw [hnb, List.range_succ_eq_map]
        rw [rsDecodeLoop]
        rw [if_neg (by
          rw [hElen, hnb]
          simp only [List.length_drop]
          have e2 : (((d.length - r + r - 1) / r) + 1) * (r + e) =
            ((d.length - r + r - 1) / r) * (r + e) + (r + e) := by ring
          omega)]
        rw [Nat.zero_mul, List.drop_zero, hEblock, hcor]
        dsimp only
        have htr : (d.take r).length = r := by simp [List.length_take]; omega
        have hpadfull : padChunk r (d.take r) = d.take r := padChunk_full r _ htr
        rw [List.nil_append, take_append_len _ _ r hpad]
        have hsucc : List.map Nat.succ (List.range (((d.drop r).length + r - 1) / r)) =
            List.map (· + 1) (List.range (((d.drop r).length + r - 1) / r)) := by
          simp [Nat.succ_eq_add_one]
        rw [hsucc]
        have hEdrop : (rs_encode parity e r d).drop (r + e) =
            rs_encode parity e r (d.drop r) := by
          rw [hE, hbfull]
          exact drop_append_len _ _ _ (by rw [List.length_append, hpad, hp])
        have hblen : r + e ≤ (rs_encode parity e r d).length := by
          rw [hElen, hnb]
          have e2 : ((((d.drop r).length + r - 1) / r) + 1) * (r + e) =
            (((d.drop r).length + r - 1) / r) * (r + e) + (r + e) := by ring
          omega
        apply rsDecodeLoop_shift correct (r + e) r (rs_encode parity e r d) hblen
        rw [hEdrop]
        rw [rsDecodeLoop_acc]
        rw [ih (d.drop r) (by simp only [List.length_drop]; omega)]
        rw [hchunks, List.map_cons, hpadfull]
        rfl

theorem join_padChunks_take (r : ℕ) (hr : 0 < r) :
    ∀ n (d : List ℕ), d.length ≤ n →
    (((listChunks r d).map (padChunk r)).join).take d.length = d := by
  intro n
  induction n with
  | zero =>
    intro d hd
    have hdn : d = [] := List.eq_nil_of_length_eq_zero (by omega)
    subst hdn
    rfl
  | succ n ih =>
    intro d hd
    by_cases hnil : d = []
    · subst hnil; rfl
    · have h1 : 0 < d.length := List.length_pos.mpr hnil
      rw [listChunks_cons r d hnil (by omega), List.map_cons]
      have hjoin : (List.map (padChunk r) (listChunks r (d.drop r))).join.take
          (d.drop r).length = d.drop r :=
        ih (d.drop r) (by simp only [List.length_drop]; omega)
      by_cases hler : d.length ≤ r
      · have htk : d.take r = d := List.take_of_length_le hler
        rw [htk, padChunk_eq_append]
        show ((d ++ List.replicate (r - d.length) 0) ++
          (List.map (padChunk r) (listChunks r (d.drop r))).join).take d.length = d
        rw [List.append_assoc]
        rw [List.take_append_of_le_length (by simp)]
        exact List.take_length d
      · have htr : (d.take r).length = r := by simp [List.length_take]; omega
        have hpadfull : padChunk r (d.take r) = d.take r := padChunk_full r _ htr
        rw [hpadfull]
        show ((d.take r) ++ (List.map (padChunk r) (listChunks r (d.drop r))).join).take
          d.length = d
        have hsplit : d.length = (d.take r).length + (d.length - r) := by
          rw [htr]; omega
        rw [hsplit, List.take_append]
        have hdl : (d.drop r).length = d.length - r := by simp [List.length_drop]
        rw [← hdl, hjoin, List.take_append_drop]

/-- C5: for every byte sequence d and ecc_len in 1..=254 with rs_data_len =
255 - ecc_len, decoding the encoding of d (under the spec contract for the
external RS library: systematic blocks data ‖ parity, and correction
returning clean codewords unchanged) yields exactly d, and rs_encode
produces ⌈|d| / rs_data_len⌉ blocks of 255 bytes. -/
theorem claim_C5 (parity : List ℕ → List ℕ) (correct : List ℕ → Except String (List ℕ))
    (eccLen rsDataLen : ℕ) (d : List ℕ)
    (he1 : 1 ≤ eccLen) (he2 : eccLen ≤ 254) (hrd : rsDataLen = 255 - eccLen)
    (hp : ∀ c, (parity c).length = eccLen)
    (hcorrect : ∀ c : List ℕ, c.length = rsDataLen →
      correct (c ++ parity c) = .ok (c ++ parity c)) :
    rs_decode correct eccLen rsDataLen d.length (rs_encode parity eccLen rsDataLen d) =
      .ok d ∧
    (rs_encode parity eccLen rsDataLen d).length =
      ((d.length + rsDataLen - 1) / rsDataLen) * 255 := by
  have hr : 0 < rsDataLen := by omega
  constructor
  · unfold rs_decode
    rw [rsDecodeLoop_encode parity correct eccLen rsDataLen hr hp hcorrect
      d.length d le_rfl]
    show Except.ok ((((listChunks rsDataLen d).map (padChunk rsDataLen)).join).take
      d.length) = Except.ok d
    rw [join_padChunks_take rsDataLen hr d.length d le_rfl]
  · rw [rs_encode_length parity eccLen rsDataLen hp hr d.length d le_rfl,
      show rsDataLen + eccLen = 255 from by omega]

/-- Witness for C5 at ecc_len = 1, rs_data_len = 254, d = [7, 8], with the
trivial instantiation of the library contract. -/
theorem claim_C5_witness :
    rs_decode (fun b => Except.ok b) 1 254 ([7, 8] : List ℕ).length
      (rs_encode (fun _ => [0]) 1 254 [7, 8]) = .ok [7, 8] ∧
    (rs_encode (fun _ => [0]) 1 254 [7, 8]).length =
      ((([7, 8] : List ℕ).length + 254 - 1) / 254) * 255 :=
  claim_C5 (fun _ => [0]) (fun b => Except.ok b) 1 254 [7, 8]
    (by decide) (by decide) (by decide) (fun _ => rfl) (fun _ _ => rfl)

theorem rsDecodeLoop_append (correct : List ℕ → Except String (List ℕ))
    (bl r : ℕ) (data : List ℕ) :
    ∀ (l₁ l₂ : List ℕ) (acc : List ℕ),
    rsDecodeLoop correct bl r data (l₁ ++ l₂) acc =
      (rsDecodeLoop correct bl r data l₁ acc).bind
        (fun a => rsDecodeLoop correct bl r data l₂ a) := by
  intro l₁
  induction l₁ with
  | nil => intro l₂ acc; rfl
  | cons i rest ih =>
    intro l₂ acc
    rw [List.cons_append, rsDecodeLoop, rsDecodeLoop]
    by_cases hin : i * bl + bl > data.length
    · rw [if_pos hin, if_pos hin]; rfl
    · rw [if_neg hin, if_neg hin]
      cases hc : correct ((data.drop (i * bl)).take bl) with
      | ok c => dsimp only; exact ih l₂ (acc ++ c.take r)
      | error e2 => rfl

theorem rsDecodeLoop_error_ecc (correct : List ℕ → Except String (List ℕ))
    (bl r : ℕ) (data : List ℕ) :
    ∀ (l acc : List ℕ) (err : VstorageError),
    rsDecodeLoop correct bl r data l acc = .error err → ∃ msg, err = .Ecc msg := by
  intro l
  induction l with
  | nil => intro acc err h; exact absurd h (by simp [rsDecodeLoop])
  | cons i rest ih =>
    intro acc err h
    rw [rsDecodeLoop] at h
    by_cases hin : i * bl + bl > data.length
    · rw [if_pos hin] at h
      simp only [Except.error.injEq] at h
      exact ⟨_, h.symm⟩
    · rw [if_neg hin] at h
      cases hc : correct ((data.drop (i * bl)).take bl) with
      | ok c =>
        rw [hc] at h
        dsimp only at h
        exact ih _ err h
      | error e2 =>
        rw [hc] at h
        dsimp only at h
        simp only [Except.error.injEq] at h
        exact ⟨_, h.symm⟩

theorem rsDecodeLoop_all_ok (correct : List ℕ → Except String (List ℕ))
    (bl r : ℕ) (data : List ℕ) :
    ∀ (l acc : List ℕ),
    (∀ i ∈ l, i * bl + bl ≤ data.length ∧
      ∃ c, correct ((data.drop (i * bl)).take bl) = .ok c) →
    ∃ v, rsDecodeLoop correct bl r data l acc = .ok v := by
  intro l
  induction l with
  | nil => intro acc _; exact ⟨acc, rfl⟩
  | cons i rest ih =>
    intro acc hall
    obtain ⟨hin, c, hc⟩ := hall i (by simp)
    rw [rsDecodeLoop, if_neg (by omega), hc]
    dsimp only
    exact ih _ fun j hj => hall j (by simp [hj])

theorem rsDecodeLoop_insufficient (correct : List ℕ → Except String (List ℕ))
    (bl r : ℕ) (data : List ℕ)
    (hall : ∀ i, (i + 1) * bl ≤ data.length →
      ∃ c, correct ((data.drop (i * bl)).take bl) = .ok c) :
    ∀ (n : ℕ) (acc : List ℕ), data.length < n * bl →
    rsDecodeLoop correct bl r data (List.range n) acc =
      .error (.Ecc ("insufficient data for RS block " ++
        toString (data.length / bl) ++ ": need " ++
        toString (data.length / bl * bl + bl) ++ " bytes, have " ++
        toString data.length)) := by
  intro n
  induction n with
  | zero => intro acc h; exact absurd h (by simp)
  | succ m ih =>
    intro acc hlt
    by_cases hm : data.length < m * bl
    · rw [List.range_succ, rsDecodeLoop_append, ih acc hm]
      rfl
    · have hge : m * bl ≤ data.length := le_of_not_lt hm
      have hi0 : data.length / bl = m := Nat.div_eq_of_lt_le hge hlt
      rw [List.range_succ, rsDecodeLoop_append]
      obtain ⟨v, hv⟩ := rsDecodeLoop_all_ok correct bl r data (List.range m) acc
        fun i himem => by
          rw [List.mem_range] at himem
          have h1 : (i + 1) * bl ≤ m * bl := Nat.mul_le_mul_right _ himem
          have h2 : (i + 1) * bl ≤ data.length := le_trans h1 hge
          have he : (i + 1) * bl = i * bl + bl := by ring
          exact ⟨by omega, hall i h2⟩
      rw [hv]
      show rsDecodeLoop correct bl r data [m] v = _
      rw [rsDecodeLoop]
      rw [if_pos (by
        have he : (m + 1) * bl = m * bl + bl := by ring
        omega)]
      rw [hi0]

/-- C7 (amended): when the buffer holds fewer complete blocks than
⌈expected_data_len / rs_data_len⌉, `rs_decode` always fails with an Ecc
error; the error is the insufficient-data error (at the first missing
block) provided every complete block before the shortfall passes RS
correction — an earlier uncorrectable complete block yields that block's
RS-correction-failed Ecc error instead. -/
theorem claim_C7_amended (correct : List ℕ → Except String (List ℕ))
    (eccLen rsDataLen expectedDataLen : ℕ) (data : List ℕ)
    (hr : 0 < rsDataLen)
    (hshort : data.length <
      ((expectedDataLen + rsDataLen - 1) / rsDataLen) * (rsDataLen + eccLen)) :
    (∃ msg, rs_decode correct eccLen rsDataLen expectedDataLen data =
      .error (.Ecc msg)) ∧
    ((∀ i, (i + 1) * (rsDataLen + eccLen) ≤ data.length →
        ∃ c, correct ((data.drop (i * (rsDataLen + eccLen))).take
          (rsDataLen + eccLen)) = .ok c) →
      rs_decode correct eccLen rsDataLen expectedDataLen data =
        .error (.Ecc ("insufficient data for RS block " ++
          toString (data.length / (rsDataLen + eccLen)) ++ ": need " ++
          toString (data.length / (rsDataLen + eccLen) * (rsDataLen + eccLen) +
            (rsDataLen + eccLen)) ++ " bytes, have " ++ toString data.length))) := by
  constructor
  · unfold rs_decode
    cases hloop : rsDecodeLoop correct (rsDataLen + eccLen) rsDataLen data
        (List.range ((expectedDataLen + rsDataLen - 1) / rsDataLen)) [] with
    | ok v =>
      exfalso
      have hpos : 0 < (expectedDataLen + rsDataLen - 1) / rsDataLen :=
        Nat.pos_of_ne_zero fun h0 => by rw [h0] at hshort; simp at hshort
      obtain ⟨m, hm⟩ : ∃ m, (expectedDataLen + rsDataLen - 1) / rsDataLen = m + 1 :=
        ⟨(expectedDataLen + rsDataLen - 1) / rsDataLen - 1, by omega⟩
      rw [hm, List.range_succ, rsDecodeLoop_append] at hloop
      cases hin : rsDecodeLoop correct (rsDataLen + eccLen) rsDataLen data
          (List.range m) [] with
      | error e2 => rw [hin] at hloop; exact absurd hloop (by simp [Except.bind])
      | ok a =>
        rw [hin] at hloop
        dsimp only [Except.bind] at hloop
        rw [rsDecodeLoop] at hloop
        rw [if_pos (by
          rw [hm] at hshort
          have he : (m + 1) * (rsDataLen + eccLen) =
            m * (rsDataLen + eccLen) + (rsDataLen + eccLen) := by ring
          omega)] at hloop
        exact absurd hloop (by simp)
    | error err =>
      obtain ⟨msg, rfl⟩ := rsDecodeLoop_error_ecc correct (rsDataLen + eccLen)
        rsDataLen data _ [] err hloop
      exact ⟨msg, rfl⟩
  · intro hall
    unfold rs_decode
    rw [rsDecodeLoop_insufficient correct (rsDataLen + eccLen) rsDataLen data hall
      ((expectedDataLen + rsDataLen - 1) / rsDataLen) [] hshort]
    rfl

instance : DecidableEq (Except VstorageError (List ℕ)) := fun
  | .ok a, .ok b =>
    if h : a = b then isTrue (by rw [h]) else isFalse (by simp [h])
  | .ok _, .error _ => isFalse (by simp)
  | .error _, .ok _ => isFalse (by simp)
  | .error a, .error b =>
    if h : a = b then isTrue (by rw [h]) else isFalse (by simp [h])

/-- Modelled from the spec: the external RS library at ecc_len = 1
(correction capacity ⌊1/2⌋ = 0).  The single parity byte of a 254-byte
chunk is its GF(256) sum (XOR): the remainder of m(x)·x modulo the
generator x − α⁰ = x + 1 is m(1).  A capacity-0 decoder returns codewords
unchanged and rejects every non-codeword. -/
def parityXor (c : List ℕ) : List ℕ := [c.foldl Nat.xor 0]

/-- Modelled from the spec: `Decoder::correct` at correction capacity 0 —
accept exactly the systematic codewords data ‖ parity. -/
def correctCap0 (buf : List ℕ) : Except String (List ℕ) :=
  if buf = buf.take 254 ++ parityXor (buf.take 254) then .ok buf
  else .error "too many errors"

/-- Counterexample to C7 as stated: with ecc_len = 1, rs_data_len = 254 and
expected_data_len = 508 (so 2 complete blocks are required), a buffer of
one single complete — but uncorrectable — 255-byte block makes `rs_decode`
fail with the RS-correction-failed error on block 0, not with the
insufficient-data error the claim demands for every such buffer. -/
theorem claim_C7_counterexample :
    rs_decode correctCap0 1 254 508 (1 :: List.replicate 254 0) =
      .error (.Ecc "RS correction failed on block 0: too many errors") ∧
    (1 :: List.replicate 254 0 : List ℕ).length < ((508 + 254 - 1) / 254) * 255 := by
  constructor
  · decide
  · decide

/-- Witness for the amended C7: one incomplete block at ecc_len = 1,
rs_data_len = 2, expected_data_len = 4 (2 blocks needed, only 3 bytes
present), with a correction function that accepts everything. -/
theorem claim_C7_witness :
    (∃ msg, rs_decode (fun b => Except.ok b) 1 2 4 [5, 6, 7] =
      .error (.Ecc msg)) ∧
    ((∀ i, (i + 1) * (2 + 1) ≤ ([5, 6, 7] : List ℕ).length →
        ∃ c, (fun b => (Except.ok b : Except String (List ℕ)))
          ((([5, 6, 7] : List ℕ).drop (i * (2 + 1))).take (2 + 1)) = .ok c) →
      rs_decode (fun b => Except.ok b) 1 2 4 [5, 6, 7] =
        .error (.Ecc ("insufficient data for RS block " ++
          toString (([5, 6, 7] : List ℕ).length / (2 + 1)) ++ ": need " ++
          toString (([5, 6, 7] : List ℕ).length / (2 + 1) * (2 + 1) + (2 + 1)) ++
          " bytes, have " ++ toString ([5, 6, 7] : List ℕ).length))) :=
  claim_C7_amended (fun b => Except.ok b) 1 2 4 [5, 6, 7] (by decide) (by decide)

/-! ## Frame configuration (src/config.rs) and encode pipeline (src/encode.rs) -/

/-- The frame configuration of src/config.rs. -/
structure FrameConfig where
  width : ℕ
  height : ℕ
  block_size : ℕ
  levels : ℕ
  ecc_len : ℕ
  fps : ℕ
  crf : ℕ

/-- `logical_width` from src/config.rs. -/
def FrameConfig.logical_width (c : FrameConfig) : ℕ := c.width / c.block_size

/-- `logical_height` from src/config.rs. -/
def FrameConfig.logical_height (c : FrameConfig) : ℕ := c.height / c.block_size

/-- `bits_per_channel` from src/config.rs (`(levels as f64).log2() as u8`,
which equals `Nat.log2 levels` for every byte value of `levels`). -/
def FrameConfig.bits_per_channel (c : FrameConfig) : ℕ := Nat.log2 c.levels

/-- `bits_per_pixel` from src/config.rs. -/
def FrameConfig.bits_per_pixel (c : FrameConfig) : ℕ := c.bits_per_channel * 3

/-- `data_area_pixels` from src/config.rs. -/
def FrameConfig.data_area_pixels (c : FrameConfig) : ℕ :=
  c.logical_width * (c.logical_height - HEADER_ROWS)

/-- `data_area_bytes` from src/config.rs. -/
def FrameConfig.data_area_bytes (c : FrameConfig) : ℕ :=
  c.data_area_pixels * c.bits_per_pixel / 8

/-- `rs_data_len` from src/config.rs. -/
def FrameConfig.rs_data_len (c : FrameConfig) : ℕ := 255 - c.ecc_len

/-- `max_rs_blocks_per_frame` from src/config.rs. -/
def FrameConfig.max_rs_blocks_per_frame (c : FrameConfig) : ℕ :=
  c.data_area_bytes / 255

/-- `max_raw_per_frame` from src/config.rs. -/
def FrameConfig.max_raw_per_frame (c : FrameConfig) : ℕ :=
  c.max_rs_blocks_per_frame * c.rs_data_len

/-- The validation performed by `FrameConfig::new` in src/config.rs on a
3840x2160 frame: positive block size dividing both dimensions, a power of
two `levels ≥ 2` (a `u8`, so `< 256`; `2 ^ log2 levels = levels` is the
power-of-two test), and `ecc_len` in 1..=254. -/
def ValidFrameConfig (c : FrameConfig) : Prop :=
  c.width = FRAME_WIDTH ∧ c.height = FRAME_HEIGHT ∧ 0 < c.block_size ∧
  FRAME_WIDTH % c.block_size = 0 ∧ FRAME_HEIGHT % c.block_size = 0 ∧
  2 ^ Nat.log2 c.levels = c.levels ∧ 2 ≤ c.levels ∧ c.levels < 256 ∧
  1 ≤ c.ecc_len ∧ c.ecc_len ≤ 254

/-- The pure per-frame core of `encode` from src/encode.rs (steps 3-5,
without file/PNG/FFmpeg I/O): check the capacity, then for each frame slice
`payload[i*max_raw .. min((i+1)*max_raw, len)]` RS-encode it and build its
header with `data_length` = slice length.  `hashFn` models the external
SHA-256 digest, `parity` the external RS encoder. -/
def encodeFrames (hashFn parity : List ℕ → List ℕ) (config : FrameConfig)
    (payload : List ℕ) (file_size : ℕ) (nonce salt : List ℕ) :
    Except VstorageError (List (FrameHeader × List ℕ)) :=
  if config.max_raw_per_frame = 0 then
    .error (.Config "frame capacity is zero — check block_size/levels/ecc settings")
  else
    .ok ((List.range ((payload.length + config.max_raw_per_frame - 1) /
        config.max_raw_per_frame)).map fun i =>
      ({ version := PROTOCOL_VERSION
         frame_number := i
         total_frames := (payload.length + config.max_raw_per_frame - 1) /
           config.max_raw_per_frame
         block_size := config.block_size
         levels := config.levels
         file_size := file_size
         data_length := ((payload.drop (i * config.max_raw_per_frame)).take
           (min (i * config.max_raw_per_frame + config.max_raw_per_frame)
             payload.length - i * config.max_raw_per_frame)).length
         ecc_len := config.ecc_len
         rs_data_len := config.rs_data_len
         nonce := nonce
         salt := salt
         data_sha256 := hashFn (rs_encode parity config.ecc_len config.rs_data_len
           ((payload.drop (i * config.max_raw_per_frame)).take
             (min (i * config.max_raw_per_frame + config.max_raw_per_frame)
               payload.length - i * config.max_raw_per_frame))) },
       rs_encode parity config.ecc_len config.rs_data_len
         ((payload.drop (i * config.max_raw_per_frame)).take
           (min (i * config.max_raw_per_frame + config.max_raw_per_frame)
             payload.length - i * config.max_raw_per_frame))))

/-- A placeholder frame slot, used only as the `getD` default in index
statements. -/
def emptyFrameSlot : FrameHeader × List ℕ :=
  (⟨0, 0, 0, 0, 0, 0, 0, 0, 0, [], [], []⟩, [])

theorem join_cons_def (a : List ℕ) (ls : List (List ℕ)) :
    (a :: ls).join = a ++ ls.join := rfl

theorem getD_map_range {β : Type} (f : ℕ → β) (n j : ℕ) (hj : j < n) (d : β) :
    ((List.range n).map f).getD j d = f j := by
  rw [List.getD_eq_get?, List.get?_map, List.get?_range hj]
  rfl

theorem join_slices (m : ℕ) : ∀ (n : ℕ) (l : List ℕ), l.length ≤ n * m →
    ((List.range n).map fun i => (l.drop (i * m)).take m).join = l := by
  intro n
  induction n with
  | zero =>
    intro l h
    have hl : l = [] := List.eq_nil_of_length_eq_zero (by omega)
    subst hl
    rfl
  | succ n ih =>
    intro l h
    rw [List.range_succ_eq_map, List.map_cons, List.map_map, join_cons_def]
    simp only [Nat.zero_mul, List.drop_zero]
    have hcomp : List.map ((fun i => (l.drop (i * m)).take m) ∘ Nat.succ) (List.range n) =
        List.map (fun i => (((l.drop m).drop (i * m)).take m)) (List.range n) :=
      List.map_congr_left fun i _ => by
        simp only [Function.comp]
        rw [List.drop_drop]
        congr 2
        simp [Nat.succ_eq_add_one]
        ring
    rw [hcomp, ih (l.drop m) (by
      simp only [List.length_drop]
      have e : (n + 1) * m = n * m + m := by ring
      omega)]
    exact List.take_append_drop m l

/-- C3: the per-frame capacity is ⌊data_area_bytes / 255⌋ · (255 − ecc_len);
the encoder fails with a Config error when it is zero, and otherwise
partitions the payload into ⌈len / max_raw⌉ contiguous slices whose header
`data_length`s equal max_raw on every frame but possibly the last, which is
at most max_raw. -/
theorem claim_C3 (hashFn parity : List ℕ → List ℕ) (config : FrameConfig)
    (payload : List ℕ) (file_size : ℕ) (nonce salt : List ℕ)
    (hv : ValidFrameConfig config) (hlen : 0 < payload.length) :
    config.max_raw_per_frame = config.data_area_bytes / 255 * (255 - config.ecc_len) ∧
    (config.max_raw_per_frame = 0 →
      encodeFrames hashFn parity config payload file_size nonce salt =
        .error (.Config "frame capacity is zero — check block_size/levels/ecc settings")) ∧
    (0 < config.max_raw_per_frame →
      ∃ frames, encodeFrames hashFn parity config payload file_size nonce salt =
          .ok frames ∧
        frames.length =
          (payload.length + config.max_raw_per_frame - 1) / config.max_raw_per_frame ∧
        (∀ j, j + 1 < frames.length →
          (frames.getD j emptyFrameSlot).1.data_length = config.max_raw_per_frame) ∧
        (∀ j, j < frames.length →
          (frames.getD j emptyFrameSlot).1.data_length ≤ config.max_raw_per_frame) ∧
        ((List.range frames.length).map fun i =>
          (payload.drop (i * config.max_raw_per_frame)).take
            config.max_raw_per_frame).join = payload) := by
  refine ⟨rfl, fun h0 => ?_, fun hpos => ?_⟩
  · unfold encodeFrames
    rw [if_pos h0]
  · unfold encodeFrames
    rw [if_neg (by omega)]
    refine ⟨_, rfl, ?_, ?_, ?_, ?_⟩
    · simp only [List.length_map, List.length_range]
    · intro j hj
      simp only [List.length_map, List.length_range] at hj
      rw [getD_map_range _ _ j (by omega)]
      show ((payload.drop (j * config.max_raw_per_frame)).take
        (min (j * config.max_raw_per_frame + config.max_raw_per_frame)
          payload.length - j * config.max_raw_per_frame)).length =
        config.max_raw_per_frame
      rw [List.length_take, List.length_drop]
      have hmul : (j + 1) * config.max_raw_per_frame =
          j * config.max_raw_per_frame + config.max_raw_per_frame := by ring
      have hle2 : (j + 1 + 1) * config.max_raw_per_frame ≤
          ((payload.length + config.max_raw_per_frame - 1) /
            config.max_raw_per_frame) * config.max_raw_per_frame :=
        Nat.mul_le_mul_right _ (by omega)
      have hmul2 : (j + 1 + 1) * config.max_raw_per_frame =
          j * config.max_raw_per_frame + config.max_raw_per_frame +
            config.max_raw_per_frame := by ring
      have hub : ((payload.length + config.max_raw_per_frame - 1) /
          config.max_raw_per_frame) * config.max_raw_per_frame ≤
          payload.length + config.max_raw_per_frame - 1 :=
        Nat.div_mul_le_self _ _
      omega
    · intro j hj
      simp only [List.length_map, List.length_range] at hj
      rw [getD_map_range _ _ j (by omega)]
      show ((payload.drop (j * config.max_raw_per_frame)).take
        (min (j * config.max_raw_per_frame + config.max_raw_per_frame)
          payload.length - j * config.max_raw_per_frame)).length ≤
        config.max_raw_per_frame
      rw [List.length_take, List.length_drop]
      omega
    · simp only [List.length_map, List.length_range]
      apply join_slices
      by_contra hc
      push_neg at hc
      have h2 : (payload.length + config.max_raw_per_frame - 1) /
          config.max_raw_per_frame + 1 ≤
          (payload.length + config.max_raw_per_frame - 1) /
            config.max_raw_per_frame := by
        rw [Nat.le_div_iff_mul_le hpos]
        have hmul : ((payload.length + config.max_raw_per_frame - 1) /
            config.max_raw_per_frame + 1) * config.max_raw_per_frame =
            ((payload.length + config.max_raw_per_frame - 1) /
              config.max_raw_per_frame) * config.max_raw_per_frame +
              config.max_raw_per_frame := by ring
        have hub : ((payload.length + config.max_raw_per_frame - 1) /
            config.max_raw_per_frame) * config.max_raw_per_frame ≤
            payload.length + config.max_raw_per_frame - 1 :=
          Nat.div_mul_le_self _ _
        omega
      omega

/-- Witness for C3 at config (block_size 2, levels 4, ecc 32), a 3-byte
payload. -/
theorem claim_C3_witness :
    (FrameConfig.mk 3840 2160 2 4 32 30 18).max_raw_per_frame =
      (FrameConfig.mk 3840 2160 2 4 32 30 18).data_area_bytes / 255 *
        (255 - (FrameConfig.mk 3840 2160 2 4 32 30 18).ecc_len) ∧
    ((FrameConfig.mk 3840 2160 2 4 32 30 18).max_raw_per_frame = 0 →
      encodeFrames (fun _ => []) (fun _ => List.replicate 32 0)
          (FrameConfig.mk 3840 2160 2 4 32 30 18) [5, 6, 7] 3
          (List.replicate 12 0) (List.replicate 16 0) =
        .error (.Config "frame capacity is zero — check block_size/levels/ecc settings")) ∧
    (0 < (FrameConfig.mk 3840 2160 2 4 32 30 18).max_raw_per_frame →
      ∃ frames, encodeFrames (fun _ => []) (fun _ => List.replicate 32 0)
          (FrameConfig.mk 3840 2160 2 4 32 30 18) [5, 6, 7] 3
          (List.replicate 12 0) (List.replicate 16 0) = .ok frames ∧
        frames.length = (([5, 6, 7] : List ℕ).length +
          (FrameConfig.mk 3840 2160 2 4 32 30 18).max_raw_per_frame - 1) /
          (FrameConfig.mk 3840 2160 2 4 32 30 18).max_raw_per_frame ∧
        (∀ j, j + 1 < frames.length →
          (frames.getD j emptyFrameSlot).1.data_length =
            (FrameConfig.mk 3840 2160 2 4 32 30 18).max_raw_per_frame) ∧
        (∀ j, j < frames.length →
          (frames.getD j emptyFrameSlot).1.data_length ≤
            (FrameConfig.mk 3840 2160 2 4 32 30 18).max_raw_per_frame) ∧
        ((List.range frames.length).map fun i =>
          (([5, 6, 7] : List ℕ).drop
            (i * (FrameConfig.mk 3840 2160 2 4 32 30 18).max_raw_per_frame)).take
            (FrameConfig.mk 3840 2160 2 4 32 30 18).max_raw_per_frame).join =
          [5, 6, 7]) :=
  claim_C3 (fun _ => []) (fun _ => List.replicate 32 0)
    (FrameConfig.mk 3840 2160 2 4 32 30 18) [5, 6, 7] 3
    (List.replicate 12 0) (List.replicate 16 0)
    (by
      unfold ValidFrameConfig
      refine ⟨rfl, rfl, by norm_num, by decide, by decide, ?_, by norm_num,
        by norm_num, by norm_num, by norm_num⟩
      show 2 ^ Nat.log2 4 = 4
      rw [log2_four]
      norm_num)
    (by decide)

/-! ## Decode pipeline tail: decrypt and truncate (src/decode.rs, steps 5-6)

The tail of `decode` after all frames are RS-decoded into `ciphertext`:
step 5 decides encryption from the header's nonce/salt (encrypted iff
`nonce != [0u8; 12] || salt != [0u8; 16]`), demands a password and calls
`crypto::decrypt` when encrypted, and step 6 slices
`&plaintext[..file_size as usize]`.  That slice indexes out of bounds —
a Rust panic, not a `VstorageError` — whenever the plaintext is shorter
than `file_size`; the panic is modelled as `none`.  The AES-GCM
decryption lives in the external aes-gcm crate, so `decodeFinish` is
parameterized over `decryptFn`. -/

def decodeFinish
    (decryptFn : List ℕ → String → List ℕ → List ℕ →
      Except VstorageError (List ℕ))
    (ciphertext : List ℕ) (password : Option String)
    (nonce salt : List ℕ) (file_size : ℕ) :
    Option (Except VstorageError (List ℕ)) :=
  if nonce ≠ List.replicate 12 0 ∨ salt ≠ List.replicate 16 0 then
    match password with
    | none => some (Except.error (VstorageError.Crypto
        "this video is encrypted — provide -p <PASSWORD>"))
    | some pw =>
      match decryptFn ciphertext pw nonce salt with
      | Except.error e => some (Except.error e)
      | Except.ok plaintext =>
        if plaintext.length < file_size then none
        else some (Except.ok (plaintext.take file_size))
  else
    if ciphertext.length < file_size then none
    else some (Except.ok (ciphertext.take file_size))

/-- C9: after optional decryption, `decode` slices the plaintext to
`file_size` bytes by direct indexing, so whenever the recovered plaintext
is shorter than the header's `file_size` field it panics (modelled as
`none`) instead of returning an error of the documented taxonomy.  This
holds on the unencrypted path (plaintext = ciphertext) and on the
encrypted path for every successful decryption. -/
theorem claim_C9
    (decryptFn : List ℕ → String → List ℕ → List ℕ →
      Except VstorageError (List ℕ))
    (ciphertext : List ℕ) (password : Option String)
    (nonce salt : List ℕ) (file_size : ℕ) :
    (¬(nonce ≠ List.replicate 12 0 ∨ salt ≠ List.replicate 16 0) →
      ciphertext.length < file_size →
      decodeFinish decryptFn ciphertext password nonce salt file_size
        = none) ∧
    (∀ pw plaintext, password = some pw →
      (nonce ≠ List.replicate 12 0 ∨ salt ≠ List.replicate 16 0) →
      decryptFn ciphertext pw nonce salt = Except.ok plaintext →
      plaintext.length < file_size →
      decodeFinish decryptFn ciphertext password nonce salt file_size
        = none) := by
  constructor
  · intro hne hlt
    unfold decodeFinish
    rw [if_neg hne, if_pos hlt]
  · intro pw plaintext hpw henc hdec hlt
    subst hpw
    unfold decodeFinish
    rw [if_pos henc]
    show (match decryptFn ciphertext pw nonce salt with
      | Except.error e => some (Except.error e)
      | Except.ok plaintext =>
        if plaintext.length < file_size then none
        else some (Except.ok (plaintext.take file_size))) = none
    rw [hdec]
    show (if plaintext.length < file_size then none
      else some (Except.ok (plaintext.take file_size))) = none
    rw [if_pos hlt]

/-- Witness for C9: a one-byte unencrypted ciphertext with file_size 5
hits the panic, and so does an encrypted run whose decryption succeeds
with an empty plaintext. -/
theorem claim_C9_witness :
    decodeFinish (fun _ _ _ _ => Except.ok []) [1] none
      (List.replicate 12 0) (List.replicate 16 0) 5 = none ∧
    decodeFinish (fun _ _ _ _ => Except.ok []) [1] (some "pw")
      (1 :: List.replicate 11 0) (List.replicate 16 0) 5 = none := by
  constructor
  · exact (claim_C9 (fun _ _ _ _ => Except.ok []) [1] none
      (List.replicate 12 0) (List.replicate 16 0) 5).1
      (by decide) (by decide)
  · exact (claim_C9 (fun _ _ _ _ => Except.ok []) [1] (some "pw")
      (1 :: List.replicate 11 0) (List.replicate 16 0) 5).2
      "pw" [] rfl (by decide) rfl (by decide)
